import Mathlib

/-!
Verification development for the Article_Annotation pipeline
(`01_Article_Summarizer.py`).

The Python source is shallowly embedded as executable Lean functions over
`List Char` (with `String` wrappers at the top level).  Modelling
conventions, stated once here and used consistently throughout:

* Python's whitespace notion (for `str.strip`, regex `\s`) is modelled by
  the six ASCII whitespace characters space, tab, newline, carriage
  return, vertical tab and form feed.  Regex `\w` is modelled as ASCII
  alphanumeric plus underscore, `\d` as ASCII digits, `[A-Z]` as ASCII
  uppercase; `str.lower` as ASCII lowercasing (`Char.toLower`).
* `re.sub` scanners are embedded as left-to-right scans over the original
  character list: at each position the engine either matches (consuming
  and replacing the matched span, continuing after it) or advances one
  character.  Greedy/backtracking behaviour of each concrete pattern is
  worked out in the comment next to its embedding.
* Scanners that jump over a matched span use an explicit fuel argument
  (structural recursion on the fuel) so that every function computes by
  kernel reduction; the wrapper instantiates the fuel with the input
  length, which is always sufficient since every step consumes at least
  one character.
-/

set_option maxRecDepth 100000

/-! ### Character classes -/

/-- Python whitespace (`str.strip`, regex `\s`), ASCII fragment. -/
def pyWS (c : Char) : Bool :=
  c == ' ' || c == '\t' || c == '\n' || c == '\x0d' || c == '\x0b' || c == '\x0c'

/-- Regex `\w` (ASCII fragment): letters, digits, underscore. -/
def isWordC (c : Char) : Bool :=
  decide (('a' ≤ c ∧ c ≤ 'z') ∨ ('A' ≤ c ∧ c ≤ 'Z') ∨ ('0' ≤ c ∧ c ≤ '9') ∨ c = '_')

/-- Regex `\d` (ASCII digits). -/
def isDigitC (c : Char) : Bool := decide ('0' ≤ c ∧ c ≤ '9')

/-- Regex `[A-Z]`. -/
def isUpperC (c : Char) : Bool := decide ('A' ≤ c ∧ c ≤ 'Z')

/-- Horizontal whitespace `[ \t]` as used by the normalizer's pass 5. -/
def isSpTab (c : Char) : Bool := c == ' ' || c == '\t'

/-! ### Generic list utilities -/

/-- `text.split('\n')`: split on newline, `[] ↦ [[]]` like Python's
`''.split('\n') == ['']`. -/
def splitNl : List Char → List (List Char)
  | [] => [[]]
  | c :: cs =>
    if c = '\n' then [] :: splitNl cs
    else
      match splitNl cs with
      | [] => [[c]]
      | h :: t => (c :: h) :: t

/-- `'\n'.join(lines)`. -/
def joinNl : List (List Char) → List Char
  | [] => []
  | [l] => l
  | l :: ls => l ++ '\n' :: joinNl ls

/-- Left strip of Python whitespace. -/
def lstripWS (s : List Char) : List Char := s.dropWhile pyWS

/-- Right strip of Python whitespace. -/
def rstripWS (s : List Char) : List Char := (s.reverse.dropWhile pyWS).reverse

/-- Python `str.strip()`. -/
def stripWS (s : List Char) : List Char := rstripWS (lstripWS s)

/-- ASCII lowercasing of a character list (Python `str.lower`). -/
def lowerL (s : List Char) : List Char := s.map Char.toLower

/-- The lines of a text, with the empty text having no lines (the reading
under which an empty normalizer output vacuously has only non-blank
lines). -/
def linesOfL (s : List Char) : List (List Char) :=
  if s = [] then [] else splitNl s

/-! ### `clean_pdf_text` — the Text Normalizer

Pass 1, `re.sub(r'(\w+)-\n(\w+)', r'\1\2', text)`: at a position starting
a `\w` run, the greedy `\w+` is forced to be the maximal run (shorter
choices put a word character where `-` is required), so the pattern
matches iff the maximal run is followed by `-`, `\n` and a word
character; the replacement keeps both runs and drops `-\n`, and scanning
resumes after the second run. -/

def dehyphF : Nat → List Char → List Char
  | 0, s => s
  | _ + 1, [] => []
  | fuel + 1, c :: cs =>
    if isWordC c then
      match (c :: cs).dropWhile isWordC with
      | '-' :: '\n' :: d :: rr =>
        if isWordC d then
          (c :: cs).takeWhile isWordC ++ (d :: rr).takeWhile isWordC ++
            dehyphF fuel ((d :: rr).dropWhile isWordC)
        else c :: dehyphF fuel cs
      | _ => c :: dehyphF fuel cs
    else c :: dehyphF fuel cs

def dehyph (s : List Char) : List Char := dehyphF s.length s

/-- Pass 2, `re.sub(r'(?<!\n)\n(?![\nA-Z])', ' ', text)`: a newline whose
original predecessor is not a newline and whose original successor is
neither a newline nor an uppercase letter becomes a space.  Both
lookarounds inspect the original text, hence the explicit predecessor
argument. -/
def mergeBrokenA (prev : Option Char) : List Char → List Char
  | [] => []
  | c :: cs =>
    if c == '\n' && prev != some '\n' &&
        (match cs with
         | [] => true
         | d :: _ => !(d == '\n' || isUpperC d)) then
      ' ' :: mergeBrokenA (some '\n') cs
    else
      c :: mergeBrokenA (some c) cs

def mergeBroken (s : List Char) : List Char := mergeBrokenA none s

/-! Pass 3a, `re.sub(r'^\s*\d{1,4}\s*$', '', text, flags=re.MULTILINE)`:
at a line start, `\s*` is forced to the maximal whitespace run (digits
are not whitespace), `\d{1,4}` must then exhaust a digit run of length
1–4 (a longer run leaves a digit where `\s*$` must hold, which fails),
and the greedy trailing `\s*` with multiline `$` extends the match up to
the last position inside the following whitespace run that sits at the
end of the text or directly before a newline. -/

/-- Try `^\s*\d{1,4}\s*$` at a line start; on success return the
remaining input and whether the last consumed character was a newline. -/
def numLineMatch (s : List Char) : Option (List Char × Bool) :=
  let w1 := s.takeWhile pyWS
  let r1 := s.dropWhile pyWS
  let ds := r1.takeWhile isDigitC
  let r2 := r1.dropWhile isDigitC
  if ds.length < 1 ∨ 4 < ds.length then none
  else
    let w2 := r2.takeWhile pyWS
    let r3 := r2.dropWhile pyWS
    if r3 = [] then
      -- `$` at the very end of the text: the whole tail is consumed.
      some ([], match (w1 ++ ds ++ w2).getLast? with
                | some '\n' => true
                | _ => false)
    else if w2.contains '\n' then
      -- greedy `\s*` backtracks to just before the *last* newline in the run
      let after := (w2.reverse.takeWhile (fun c => c ≠ '\n')).reverse
      let consumed := w1 ++ ds ++ (w2.take (w2.length - after.length - 1))
      some ('\n' :: after ++ r3,
            match consumed.getLast? with
            | some '\n' => true
            | _ => false)
    else none

def dropNumLinesF : Nat → Bool → List Char → List Char
  | 0, _, s => s
  | _ + 1, _, [] => []
  | fuel + 1, atStart, c :: cs =>
    match (if atStart then numLineMatch (c :: cs) else none) with
    | some (rest, lastNl) => dropNumLinesF fuel lastNl rest
    | none => c :: dropNumLinesF fuel (c == '\n') cs

def dropNumLines (s : List Char) : List Char := dropNumLinesF s.length true s

/-- Pass 3b, `re.sub(r'Page\s*\d+', '', text, flags=re.IGNORECASE)`:
case-insensitive literal `page`, maximal whitespace run, at least one
digit (maximal run). -/
def dropPageTagsF : Nat → List Char → List Char
  | 0, s => s
  | _ + 1, [] => []
  | fuel + 1, c :: cs =>
    match c :: cs with
    | p :: a :: g :: e :: r =>
      if p.toLower == 'p' && a.toLower == 'a' && g.toLower == 'g' && e.toLower == 'e' then
        let r2 := r.dropWhile pyWS
        let ds := r2.takeWhile isDigitC
        if ds.length ≥ 1 then dropPageTagsF fuel (r2.dropWhile isDigitC)
        else c :: dropPageTagsF fuel cs
      else c :: dropPageTagsF fuel cs
    | _ => c :: dropPageTagsF fuel cs

def dropPageTags (s : List Char) : List Char := dropPageTagsF s.length s

/-- Pass 3c, `re.sub(r'\|\s*www\.\S+\s*\|?', '', text)`: a vertical bar,
maximal whitespace, literal `www.`, at least one non-whitespace character
(maximal run), maximal whitespace, and an optional trailing bar. -/
def dropWebFootersF : Nat → List Char → List Char
  | 0, s => s
  | _ + 1, [] => []
  | fuel + 1, c :: cs =>
    if c = '|' then
      match cs.dropWhile pyWS with
      | w1 :: w2 :: w3 :: dot :: r =>
        if w1 == 'w' && w2 == 'w' && w3 == 'w' && dot == '.' && !r.isEmpty &&
            !(pyWS (r.headD ' ')) then
          let r2 := r.dropWhile (fun c => !(pyWS c))
          let r3 := r2.dropWhile pyWS
          match r3 with
          | '|' :: r4 => dropWebFootersF fuel r4
          | _ => dropWebFootersF fuel r3
        else c :: dropWebFootersF fuel cs
      | _ => c :: dropWebFootersF fuel cs
    else c :: dropWebFootersF fuel cs

def dropWebFooters (s : List Char) : List Char := dropWebFootersF s.length s

/-- Pass 3d, `re.sub(r'https?://\S+', '', text)`: literal `http`,
optional `s`, literal `://`, then a maximal non-empty run of
non-whitespace. -/
def dropUrlsF : Nat → List Char → List Char
  | 0, s => s
  | _ + 1, [] => []
  | fuel + 1, c :: cs =>
    let hit : Option (List Char) :=
      match c :: cs with
      | 'h' :: 't' :: 't' :: 'p' :: 's' :: ':' :: '/' :: '/' :: r => some r
      | 'h' :: 't' :: 't' :: 'p' :: ':' :: '/' :: '/' :: r => some r
      | _ => none
    match hit with
    | some r =>
      if !r.isEmpty && !(pyWS (r.headD ' ')) then
        dropUrlsF fuel (r.dropWhile (fun c => !(pyWS c)))
      else c :: dropUrlsF fuel cs
    | none => c :: dropUrlsF fuel cs

def dropUrls (s : List Char) : List Char := dropUrlsF s.length s

/-- The deduplication key: `line.strip().lower()`. -/
def dkey (line : List Char) : List Char := lowerL (stripWS line)

/-- Pass 4: keep a line iff its stripped form is non-empty and its
stripped lower-cased form was not seen before (Python's `seen` set is
modelled as a list of keys). -/
def dedupeLinesA (seen : List (List Char)) : List (List Char) → List (List Char)
  | [] => []
  | line :: ls =>
    let l := stripWS line
    if !l.isEmpty && !(seen.contains (lowerL l)) then
      line :: dedupeLinesA (lowerL l :: seen) ls
    else
      dedupeLinesA seen ls

def dedupeLines (ls : List (List Char)) : List (List Char) := dedupeLinesA [] ls

def dedupeText (s : List Char) : List Char := joinNl (dedupeLines (splitNl s))

/-- Pass 5a, `re.sub(r'[ \t]+', ' ', text)`: runs of space/tab (which
never contain a newline) collapse to a single space; embedded as the
per-line run collapse.  A space/tab followed by another space/tab is
dropped; the last space/tab of a run becomes `' '`. -/
def collapseSpTab : List Char → List Char
  | [] => []
  | c :: cs =>
    if isSpTab c then
      match cs with
      | d :: _ => if isSpTab d then collapseSpTab cs else ' ' :: collapseSpTab cs
      | [] => [' ']
    else c :: collapseSpTab cs

def collapseSpaces (s : List Char) : List Char :=
  joinNl ((splitNl s).map collapseSpTab)

/-- Pass 5b, `re.sub(r'\n[ \t]+', '\n', text)`: every line that follows a
newline loses its leading space/tab run. -/
def stripLineLeading (s : List Char) : List Char :=
  match splitNl s with
  | [] => []
  | h :: t => joinNl (h :: t.map (List.dropWhile isSpTab))

/-- Right strip of horizontal whitespace. -/
def rstripSpTab (l : List Char) : List Char := (l.reverse.dropWhile isSpTab).reverse

def mapInit : List (List Char) → List (List Char)
  | [] => []
  | [l] => [l]
  | l :: ls => rstripSpTab l :: mapInit ls

/-- Pass 5c, `re.sub(r'[ \t]+\n', '\n', text)`: every line followed by a
newline loses its trailing space/tab run. -/
def stripLineTrailing (s : List Char) : List Char := joinNl (mapInit (splitNl s))

def nlRep (k : Nat) : List Char := List.replicate (min k 2) '\n'

/-- Pass 5d, `re.sub(r'\n{3,}', '\n\n', text)`: a run of three or more
newlines collapses to exactly two; shorter runs are untouched. -/
def collapseNlA (run : Nat) : List Char → List Char
  | [] => nlRep run
  | c :: cs =>
    if c = '\n' then collapseNlA (run + 1) cs
    else nlRep run ++ c :: collapseNlA 0 cs

def collapseNl (s : List Char) : List Char := collapseNlA 0 s

/-- Pass 5e, `re.sub(r'[ \t]{2,}', ' ', text)`: runs of two or more
space/tab collapse to a single space, a lone space/tab is untouched. -/
def collapseMultiA (inRun : Bool) : List Char → List Char
  | [] => []
  | c :: cs =>
    if isSpTab c then
      match cs with
      | d :: _ =>
        if isSpTab d then collapseMultiA true cs
        else (if inRun then ' ' else c) :: collapseMultiA false cs
      | [] => [if inRun then ' ' else c]
    else c :: collapseMultiA false cs

def collapseMulti (s : List Char) : List Char :=
  joinNl ((splitNl s).map (collapseMultiA false))

/-- `clean_pdf_text` (the Text Normalizer), list form. -/
def cleanPdfTextL (text : List Char) : List Char :=
  stripWS (collapseMulti (collapseNl (stripLineTrailing (stripLineLeading
    (collapseSpaces (dedupeText (dropUrls (dropWebFooters (dropPageTags
      (dropNumLines (mergeBroken (dehyph text))))))))))))

/-- `clean_pdf_text` on strings. -/
def clean_pdf_text (text : String) : String := String.mk (cleanPdfTextL text.data)

example : clean_pdf_text "Face-\nbook" = "Facebook" := by decide
example : clean_pdf_text "Hello  world" = "Hello world" := by decide
example : clean_pdf_text "foo-\n\nBar" = "foo-\nBar" := by decide
example : clean_pdf_text "Foo  Bar\nFoo Bar" = "Foo Bar\nFoo Bar" := by decide
example : clean_pdf_text "12\nIntro" = "Intro" := by decide
example : clean_pdf_text "A\n12\nB" = "A 12\nB" := by decide
example : clean_pdf_text "see page 5 now" = "see now" := by decide

/-! ### `strip_citations_and_references` — the Citation Stripper -/

/-- Four consecutive ASCII digits somewhere in the list (regex `\d{4}`
viewed as a window test). -/
def hasYear4 : List Char → Bool
  | a :: b :: c :: d :: t =>
    (isDigitC a && isDigitC b && isDigitC c && isDigitC d) || hasYear4 (b :: c :: d :: t)
  | _ => false

/-- Step 1, `re.sub(r'\(([^)]*\d{4}[^)]*)\)', '', text)`: at `(`, the
class `[^)]` cannot cross a closing parenthesis, so the pattern matches
iff some closing parenthesis follows and the span up to the first one
contains four consecutive digits; the whole span including both
parentheses is deleted and scanning resumes after it. -/
def rmParenYearsF : Nat → List Char → List Char
  | 0, s => s
  | _ + 1, [] => []
  | fuel + 1, c :: cs =>
    if c = '(' then
      let inner := cs.takeWhile (fun d => d != ')')
      if inner.length < cs.length && hasYear4 inner then
        rmParenYearsF fuel (cs.drop (inner.length + 1))
      else c :: rmParenYearsF fuel cs
    else c :: rmParenYearsF fuel cs

def rmParenYears (s : List Char) : List Char := rmParenYearsF s.length s

/-- Inner loop of the bracket-citation pattern: after `[\d+`, repeat
`,\s*\d+` as long as it matches, then require `]`; a failed iteration
makes the star stop before its comma, where the required `]` then fails,
so the whole candidate is rejected (no partial backtracking is ever
useful). On success, returns the input remaining after `]`. -/
def bracketTailF : Nat → List Char → Option (List Char)
  | 0, _ => none
  | _ + 1, [] => none
  | fuel + 1, c :: cs =>
    if c = ']' then some cs
    else if c = ',' then
      let r := cs.dropWhile pyWS
      let ds := r.takeWhile isDigitC
      if ds.length ≥ 1 then bracketTailF fuel (r.dropWhile isDigitC)
      else none
    else none

/-- Step 2, `re.sub(r'\[\d+(,\s*\d+)*\]', '', text)`. -/
def rmBracketCitesF : Nat → List Char → List Char
  | 0, s => s
  | _ + 1, [] => []
  | fuel + 1, c :: cs =>
    if c = '[' then
      let ds := cs.takeWhile isDigitC
      if ds.length ≥ 1 then
        match bracketTailF fuel (cs.dropWhile isDigitC) with
        | some rest => rmBracketCitesF fuel rest
        | none => c :: rmBracketCitesF fuel cs
      else c :: rmBracketCitesF fuel cs
    else c :: rmBracketCitesF fuel cs

def rmBracketCites (s : List Char) : List Char := rmBracketCitesF s.length s

/-- The three reference headings of
`re.split(r'\n\s*(References|Bibliography|Works Cited)\s*\n', …)`,
lower-cased. -/
def refHeadings : List (List Char) :=
  [("references".data), ("bibliography".data), ("works cited".data)]

/-- Case-insensitive literal-word match; returns the rest on success. -/
def matchWordCI : List Char → List Char → Option (List Char)
  | [], s => some s
  | _ :: _, [] => none
  | w :: ws, c :: cs => if c.toLower = w then matchWordCI ws cs else none

/-- Does `\n\s*(References|Bibliography|Works Cited)\s*\n` (with
`re.IGNORECASE`) match at this position?  After the leading newline the
greedy `\s*` is forced to the maximal whitespace run (every alternative
starts with a letter); after the heading word, `\s*\n` holds iff a
newline occurs before the first non-whitespace character. -/
def refTailOk (rest : List Char) : Bool :=
  (rest.dropWhile (fun d => pyWS d && d != '\n')).headD ' ' == '\n'

def refMatchAt : List Char → Bool
  | [] => false
  | c :: cs =>
    c = '\n' &&
    (let r := cs.dropWhile pyWS
     refHeadings.any (fun w => ((matchWordCI w r).map refTailOk).getD false))

/-- Index of the first position where the reference-heading pattern
matches (the start index used by `re.split(...)[0]`). -/
def refFindA : List Char → Option Nat
  | [] => none
  | c :: cs =>
    if refMatchAt (c :: cs) then some 0
    else (refFindA cs).map (· + 1)

/-- Step 3, `re.split(r'\n\s*(References|Bibliography|Works Cited)\s*\n',
text, flags=re.IGNORECASE)[0]`: everything from the first match of the
heading pattern onward is discarded; with no match the text is kept
whole. -/
def dropAfterRefs (s : List Char) : List Char :=
  match refFindA s with
  | some p => s.take p
  | none => s

/-- `strip_citations_and_references`, list form. -/
def stripCitationsL (text : List Char) : List Char :=
  stripWS (dropAfterRefs (rmBracketCites (rmParenYears text)))

/-- `strip_citations_and_references` on strings. -/
def strip_citations_and_references (text : String) : String :=
  String.mk (stripCitationsL text.data)

example : strip_citations_and_references "Body text.\nReferences\nSmith, J. (2020)." =
    "Body text." := by decide
example : strip_citations_and_references "References\nSmith, J." = "References\nSmith, J." := by
  decide
example : strip_citations_and_references "(19[12]20)" = "(1920)" := by decide
example : strip_citations_and_references "Findings were strong (Smith 2020; Doe, 2019)." =
    "Findings were strong ." := by decide
example : strip_citations_and_references "keep [12] and [1, 3, 5] out" = "keep  and  out" := by
  decide
example : strip_citations_and_references "a\n  bibliography  \nb" = "a" := by decide
example : strip_citations_and_references "a\nWorks cited\nb" = "a" := by decide
example : strip_citations_and_references "a\nReferences extra\nb" = "a\nReferences extra\nb" := by
  decide

/-! ### `query_ollama` — the Model Client

The HTTP transport (`requests.post` + `raise_for_status` +
`response.json()["response"]`) is abstracted as a function from the
attempt number to either the response text or the exception message.
The run is instrumented with the number of attempts performed and the
list of `time.sleep` durations, so the retry/backoff schedule is part of
the modelled behaviour.  With `retries = 0` the Python `for` loop body
never runs and the function falls through returning `None`, hence the
`Option` result. -/

structure QueryRun where
  result : Option String
  attempts : Nat
  sleeps : List Nat
  deriving DecidableEq, Repr

def queryOllamaA (transport : Nat → Except String String) (retries : Nat) :
    Nat → Nat → QueryRun
  | _, 0 => { result := none, attempts := 0, sleeps := [] }
  | attempt, left + 1 =>
    match transport attempt with
    | .ok r => { result := some (String.mk (stripWS r.data)), attempts := 1, sleeps := [] }
    | .error e =>
      if attempt = retries - 1 then
        { result := some ("[ERROR] " ++ e), attempts := 1, sleeps := [] }
      else
        let rest := queryOllamaA transport retries (attempt + 1) left
        { result := rest.result, attempts := rest.attempts + 1, sleeps := 1 :: rest.sleeps }

/-- `query_ollama(prompt, model, max_tokens, retries)`; the prompt, model
and decoding options ride inside `transport`, which is what the claims
quantify over. -/
def query_ollama (transport : Nat → Except String String) (retries : Nat := 3) : QueryRun :=
  queryOllamaA transport retries 0 retries

example :
    query_ollama (fun _ => .error "boom") 3 =
      { result := some "[ERROR] boom", attempts := 3, sleeps := [1, 1] } := by decide
example :
    query_ollama (fun _ => .ok "  hi \n") 3 =
      { result := some "hi", attempts := 1, sleeps := [] } := by decide
example : query_ollama (fun _ => .error "x") 0 =
    { result := none, attempts := 0, sleeps := [] } := by decide

/-! ### `strip_thoughts` and `clean_json` — the Response Recoverer -/

/-- Position of the first occurrence of `pat` (non-empty) in `s`. -/
def findSub (pat : List Char) : List Char → Option Nat
  | [] => if pat = [] then some 0 else none
  | c :: cs =>
    if pat.isPrefixOf (c :: cs) then some 0
    else (findSub pat cs).map (· + 1)

/-- `re.sub(r"<think>.*?</think>", "", text, flags=re.DOTALL)`: at an
opening `<think>`, the non-greedy `.*?` runs to the first following
`</think>`; without a closing tag there is no match and scanning
advances one character. -/
def stripThinkF : Nat → List Char → List Char
  | 0, s => s
  | _ + 1, [] => []
  | fuel + 1, c :: cs =>
    if ("<think>".data).isPrefixOf (c :: cs) then
      let body := (c :: cs).drop 7
      match findSub ("</think>".data) body with
      | some p => stripThinkF fuel (body.drop (p + 8))
      | none => c :: stripThinkF fuel cs
    else c :: stripThinkF fuel cs

/-- `strip_thoughts`, list form (regex sub followed by `.strip()`). -/
def stripThoughtsL (s : List Char) : List Char := stripWS (stripThinkF s.length s)

def strip_thoughts (s : String) : String := String.mk (stripThoughtsL s.data)

/-- `raw_text.replace('\\n', '\n')`: every two-character backslash-`n`
sequence becomes a literal newline (left-to-right, non-overlapping). -/
def replaceLitNl : List Char → List Char
  | '\\' :: 'n' :: rest => '\n' :: replaceLitNl rest
  | c :: rest => c :: replaceLitNl rest
  | [] => []

/-- `str.find(ch)` : first index or `-1`. -/
def pyFind (s : List Char) (ch : Char) : Int :=
  match findSub [ch] s with
  | some p => (p : Int)
  | none => -1

/-- `str.rfind(ch)` : last index or `-1`. -/
def pyRFind (s : List Char) (ch : Char) : Int :=
  match findSub [ch] s.reverse with
  | some p => (s.length : Int) - 1 - (p : Int)
  | none => -1

/-- Python slice `s[start:stop]` with possibly negative indices. -/
def pySlice (s : List Char) (start stop : Int) : List Char :=
  (s.take (if stop < 0 then max (stop + s.length) 0 else min stop s.length).toNat).drop
    (if start < 0 then max (start + s.length) 0 else min start s.length).toNat

/-! A JSON value, mirroring what `json.loads` produces for the purposes
of this pipeline: objects are association lists in parse order (Python's
dict semantics beyond that — later duplicate keys winning — does not
matter for any claim), and numbers keep their source lexeme. -/

inductive JVal where
  | obj : List (String × JVal) → JVal
  | arr : List JVal → JVal
  | str : String → JVal
  | num : String → JVal
  | bool : Bool → JVal
  | null : JVal

/-- JSON insignificant whitespace (as accepted by `json.loads`). -/
def jsonWS (c : Char) : Bool := c == ' ' || c == '\t' || c == '\n' || c == '\x0d'

def hexVal (c : Char) : Option Nat :=
  if '0' ≤ c ∧ c ≤ '9' then some (c.toNat - '0'.toNat)
  else if 'a' ≤ c ∧ c ≤ 'f' then some (c.toNat - 'a'.toNat + 10)
  else if 'A' ≤ c ∧ c ≤ 'F' then some (c.toNat - 'A'.toNat + 10)
  else none

/-- Parse the body of a JSON string literal (the opening quote already
consumed).  Strict mode: raw control characters below `0x20` are
rejected, exactly the escapes of the JSON grammar are accepted. -/
def parseJStr : List Char → Option (List Char × List Char)
  | [] => none
  | '"' :: rest => some ([], rest)
  | '\\' :: e :: rest =>
    match e with
    | '"' => (parseJStr rest).map (fun (s, r) => ('"' :: s, r))
    | '\\' => (parseJStr rest).map (fun (s, r) => ('\\' :: s, r))
    | '/' => (parseJStr rest).map (fun (s, r) => ('/' :: s, r))
    | 'b' => (parseJStr rest).map (fun (s, r) => ('\x08' :: s, r))
    | 'f' => (parseJStr rest).map (fun (s, r) => ('\x0c' :: s, r))
    | 'n' => (parseJStr rest).map (fun (s, r) => ('\n' :: s, r))
    | 'r' => (parseJStr rest).map (fun (s, r) => ('\x0d' :: s, r))
    | 't' => (parseJStr rest).map (fun (s, r) => ('\t' :: s, r))
    | 'u' =>
      match rest with
      | a :: b :: c :: d :: rest' =>
        match hexVal a, hexVal b, hexVal c, hexVal d with
        | some x, some y, some z, some w =>
          (parseJStr rest').map (fun (s, r) =>
            (Char.ofNat (((x * 16 + y) * 16 + z) * 16 + w) :: s, r))
        | _, _, _, _ => none
      | _ => none
    | _ => none
  | c :: rest =>
    if c.toNat < 0x20 then none
    else (parseJStr rest).map (fun (s, r) => (c :: s, r))

/-- Lex a JSON number `-?(0|[1-9][0-9]*)(\.[0-9]+)?([eE][+-]?[0-9]+)?`,
returning the lexeme. -/
def parseJNum (s : List Char) : Option (List Char × List Char) :=
  let (sign, r1) := match s with
    | '-' :: r => (['-'], r)
    | _ => ([], s)
  match r1 with
  | [] => none
  | c :: _ =>
    if !isDigitC c then none
    else
      let intPart := if c = '0' then ['0'] else r1.takeWhile isDigitC
      let r2 := r1.drop intPart.length
      let (frac, r3) := match r2 with
        | '.' :: r =>
          let ds := r.takeWhile isDigitC
          if ds.length ≥ 1 then ('.' :: ds, r.drop ds.length) else ([], r2)
        | _ => ([], r2)
      -- a dot not followed by a digit makes the whole literal invalid JSON;
      -- json.loads would stop before the dot and then fail on trailing data,
      -- which the driver turns into the same "no value" outcome we model here
      let (ex, r4) := match r3 with
        | e :: rest =>
          if e = 'e' ∨ e = 'E' then
            let (es, rest') := match rest with
              | '+' :: r => (['+'], r)
              | '-' :: r => (['-'], r)
              | _ => ([], rest)
            let ds := rest'.takeWhile isDigitC
            if ds.length ≥ 1 then (e :: es ++ ds, rest'.drop ds.length) else ([], r3)
          else ([], r3)
        | [] => ([], r3)
      some (sign ++ intPart ++ frac ++ ex, r4)

inductive PMode where
  | value : PMode
  | members : PMode
  | elems : PMode
  deriving DecidableEq, Repr

/-- Recursive-descent core of `json.loads`, fuelled for structural
recursion.  `value` parses one JSON value; `members` parses the
remainder of an object after `{` (at least one `"key": value` pair, comma
separated, closed by `}`), returning it as a `JVal.obj`; `elems`
similarly parses the remainder of a non-empty array. -/
def parseCore : Nat → PMode → List Char → Option (JVal × List Char)
  | 0, _, _ => none
  | fuel + 1, .value, s =>
    match s.dropWhile jsonWS with
    | '{' :: r =>
      match r.dropWhile jsonWS with
      | '}' :: r' => some (.obj [], r')
      | _ => parseCore fuel .members r
    | '[' :: r =>
      match r.dropWhile jsonWS with
      | ']' :: r' => some (.arr [], r')
      | _ => parseCore fuel .elems r
    | '"' :: r => (parseJStr r).map (fun (cs, rest) => (.str (String.mk cs), rest))
    | 't' :: 'r' :: 'u' :: 'e' :: r => some (.bool true, r)
    | 'f' :: 'a' :: 'l' :: 's' :: 'e' :: r => some (.bool false, r)
    | 'n' :: 'u' :: 'l' :: 'l' :: r => some (.null, r)
    | 'N' :: 'a' :: 'N' :: r => some (.num "NaN", r)
    | 'I' :: 'n' :: 'f' :: 'i' :: 'n' :: 'i' :: 't' :: 'y' :: r => some (.num "Infinity", r)
    | '-' :: 'I' :: 'n' :: 'f' :: 'i' :: 'n' :: 'i' :: 't' :: 'y' :: r =>
      some (.num "-Infinity", r)
    | r => (parseJNum r).map (fun (ds, rest) => (.num (String.mk ds), rest))
  | fuel + 1, .members, s =>
    match (s.dropWhile jsonWS) with
    | '"' :: r =>
      match parseJStr r with
      | none => none
      | some (key, r1) =>
        match r1.dropWhile jsonWS with
        | ':' :: r2 =>
          match parseCore fuel .value r2 with
          | none => none
          | some (v, r3) =>
            match r3.dropWhile jsonWS with
            | ',' :: r4 =>
              match parseCore fuel .members r4 with
              | some (.obj ps, rest) => some (.obj ((String.mk key, v) :: ps), rest)
              | _ => none
            | '}' :: r4 => some (.obj [(String.mk key, v)], r4)
            | _ => none
        | _ => none
    | _ => none
  | fuel + 1, .elems, s =>
    match parseCore fuel .value s with
    | none => none
    | some (v, r1) =>
      match r1.dropWhile jsonWS with
      | ',' :: r2 =>
        match parseCore fuel .elems r2 with
        | some (.arr vs, rest) => some (.arr (v :: vs), rest)
        | _ => none
      | ']' :: r2 => some (.arr [v], r2)
      | _ => none

/-- `json.loads`: a single value surrounded by nothing but whitespace. -/
def parseJson (s : List Char) : Option JVal :=
  match parseCore (s.length + 1) .value s with
  | some (v, rest) => if rest.dropWhile jsonWS = [] then some v else none
  | none => none

/-- The brace-delimited slice of `clean_json` step 3:
`raw_text[raw_text.find("{") : raw_text.rfind("}") + 1]`. -/
def braceSlice (t : List Char) : List Char :=
  pySlice t (pyFind t '{') (pyRFind t '}' + 1)

/-- Steps 1–2 of `clean_json`: strip think tags, replace literal `\n`
escapes by newlines, strip. -/
def cleanJsonPre (raw : List Char) : List Char :=
  stripWS (replaceLitNl (stripThoughtsL raw))

/-- `clean_json`, list form: on any parse failure the exception handler
returns the empty dict (the `print` diagnostic is outside the model). -/
def cleanJsonL (raw : List Char) : JVal :=
  match parseJson (braceSlice (cleanJsonPre raw)) with
  | some v => v
  | none => .obj []

def clean_json (raw : String) : JVal := cleanJsonL raw.data

example : clean_json "no json here" = .obj [] := rfl
example : clean_json "pre \x7b\"a\": \"b\"\x7d post" = .obj [("a", .str "b")] := rfl
example :
    clean_json "<think>stuff\nmore</think> \x7b\"k\": [1, 2]\x7d" =
      .obj [("k", .arr [.num "1", .num "2"])] := rfl
example : parseJson ("\x7b\"a\": \"x\\ny\"\x7d".data) = some (.obj [("a", .str "x\ny")]) := rfl
example : clean_json "\x7b\"a\": \"x\\ny\"\x7d" = .obj [] := rfl
example : clean_json "\x7b\"a\": 3" = .obj [] := rfl
example :
    clean_json "<think>r</think>Some prose \x7b\"doi\":\"10.1/x\",\"hypotheses\":[\"H1\"]\x7d t" =
      .obj [("doi", .str "10.1/x"), ("hypotheses", .arr [.str "H1"])] := rfl

/-! ### `summarize_structured` — the Prompt Builder

The fixed instruction template of `summarize_structured`, written as
the part before the `{text}` placeholder, the placeholder, and the part
after it (their concatenation is the Python `json_prompt_template`
literal verbatim). -/

def templatePre : String :=
    "You are a research assistant. From the following academic article, extract a structured su" ++
    "mmary covering these fields.\n- doi: The DOI of the article, if listed.\n- title: The titl" ++
    "e of the academic article.\n- authors: The authors of the article.\n- abstract: The articl" ++
    "e abstract, almost always the first paragraph of the paper.\n- research_questions: What re" ++
    "search questions are the authors addressing?\n- hypotheses: What hypotheses do they formal" ++
    "ly propose?\n- data: Describe the data used in the analysis (years, geography, unit of ana" ++
    "lysis, dataset size, sources).\n- methods: Describe the statistical methods used and desig" ++
    "n decisions such as control variables.\n- findings: What did the authors find? What resusl" ++
    "ts do they discuss?\n\nWhen writing each field, ensure:\n- doi is the exact doi of the art" ++
    "icle.\n- title is the exact title of the article.\n- abstract is the exact abstract of the" ++
    " artice.\n- authors include only names, concatenated into a single string.\n- research_que" ++
    "stions contains exact or paraphrased questions from the introduction or abstract.\n- hypot" ++
    "heses only includes explicit predictions or testable claims declared as hypotheses to be t" ++
    "ested. If none are stated, return an empty string.\n- data lists year(s), platform, datase" ++
    "t size, unit of analysis, and source, if stated.\n- methods describes actual models and me" ++
    "trics used (e.g., linear regression, GAMLSS, support vector machines, diffusion trees, str" ++
    "uctural virality, depth).\n- findings are only drawn from the Results or Discussion. Do no" ++
    "t invent findings.\n\nEach field should be written as a detailed, multi-sentence paragraph" ++
    " (at least 3-4 sentences), using the exact terminology and evidence provided in the text." ++
    "\nIf there are multiple hypotheses, create a nested entry for each.Be specific and include" ++
    " details such as time ranges, sample sizes, platforms, modeling techniques, and units of a" ++
    "nalysis.\nUse actual outcomes, patterns, or numerical/statistical results; mirror the exac" ++
    "t language used in the article.\nIf the article includes more than one hypothesis, data so" ++
    "urce, method, result, finding, or question, include each as a separate clearly delimited s" ++
    "entence or clause, rather than combining them into one vague statement.\n\nDO NOT infer or" ++
    " fabricate information — only include what the article states.\nDO NOT include commentary," ++
    " preambles, reasoning, or planning steps.\nDO NOT return any text before or after the JSON" ++
    ". Return only the JSON.\n\nAs a checklist, ensure:\n- Names entities are named explicitly " ++
    "(e.g., Facebook, not \x27social media\x27).\n- The dataset size, time range, and source ar" ++
    "e included.\n- The method includes named statistical metrics (e.g., linear regression, log" ++
    "istic regression, structural virality, depth).\n- Each answer is comprehensive and uses MU" ++
    "LTIPLE SENTENCES in its answer.\n- No findings are invented — all numbers must come from t" ++
    "he article and use its language. Do NOT use outside knowledge or general assumptions; only" ++
    " use what is specifically stated or measured in the article.\n\n=== ARTICLE TO PROCESS ===" ++
    "\n"
def templatePost : String :=
    "\n=== END ARTICLE ===\n\nDO NOT include any content from the example below in your final a" ++
    "nswer. It is only provided to show formatting style.\nReturn ONLY a valid JSON object like" ++
    " the example below. Do NOT include any prose, commentary, or explanation before or after i" ++
    "t.\n\n=== Example (for structure only, not content!) ===\n\n\x7b\"doi\": \"...\",  \"title" ++
    "\": \"...\",  \"authors\": \"...\",  \"abstract\": \"...\",  \"research_questions\": \"..." ++
    "\",  \"hypotheses\": [\"hypothesis 1\", \"hypothesis 2\", \"...\"],  \"data\": \"...\",  " ++
    "\"methods\": \"...\",  \"findings\": \"...\"\x7d\n\n=== End of Example ===\n\n"
def json_prompt_template : String := templatePre ++ "\x7btext\x7d" ++ templatePost

/-- Python `str.replace(pat, repl)` for a non-empty `pat`: leftmost
non-overlapping matches, scanning resuming after each replacement. -/
def replaceAllF (pat repl : List Char) : Nat → List Char → List Char
  | 0, s => s
  | _ + 1, [] => []
  | fuel + 1, c :: cs =>
    if pat.isPrefixOf (c :: cs) then
      repl ++ replaceAllF pat repl fuel ((c :: cs).drop pat.length)
    else c :: replaceAllF pat repl fuel cs

def replaceSub (s pat repl : List Char) : List Char := replaceAllF pat repl s.length s

/-- The prompt built inside `summarize_structured`:
`json_prompt_template.replace("{text}", text)`. -/
def buildPrompt (text : String) : String :=
  String.mk (replaceSub json_prompt_template.data ("\x7btext\x7d".data) text.data)

/-- `summarize_structured(text, model, max_tokens)` with the model call
abstracted as `modelFn` (prompt ↦ reply). -/
def summarize_structured (modelFn : String → String) (text : String) : String :=
  modelFn (buildPrompt text)

/-- Python slice `s[0:n]`. -/
def strTake (n : Nat) (s : String) : String := String.mk (s.data.take n)

/-! ### The per-document batch loop body

`for pdf in pdfs:` body (file I/O aside): extract text, strip citations,
truncate to 30,000 characters, prompt, query, recover.  `extract_pdf_text_clean`
is an external library call, so the trace starts from its output
`pdf_text`; the model endpoint is abstracted as `modelFn`. -/

structure DocTrace where
  clean_text : String
  raw_responses : String
  cleaned : JVal

/-- The loop body exactly as written: `clean_text =
strip_citations_and_references(pdf_text)` — `clean_pdf_text` is not
invoked. -/
def processDocument (modelFn : String → String) (pdf_text : String) : DocTrace :=
  let clean_text := strip_citations_and_references pdf_text
  let raw_responses := summarize_structured modelFn (strTake 30000 clean_text)
  { clean_text := clean_text
    raw_responses := raw_responses
    cleaned := clean_json raw_responses }

/-- The per-document pipeline as the specification describes it:
normalization (`clean_pdf_text`) applied to the raw extracted text before
citation stripping. -/
def processDocumentSpec (modelFn : String → String) (pdf_text : String) : DocTrace :=
  let clean_text := strip_citations_and_references (clean_pdf_text pdf_text)
  let raw_responses := summarize_structured modelFn (strTake 30000 clean_text)
  { clean_text := clean_text
    raw_responses := raw_responses
    cleaned := clean_json raw_responses }

example :
    (processDocument (fun _ => "") "Hello  world").clean_text = "Hello  world" := rfl
example :
    (processDocumentSpec (fun _ => "") "Hello  world").clean_text = "Hello world" := rfl

/-! ### Claim-statement predicates -/

/-- No two (non-blank) lines of the text share the same stripped,
lower-cased form — the duplicate-freeness the specification asserts for
normalizer output. -/
def dupFreeLines (s : List Char) : Prop :=
  (((linesOfL s).map dkey).filter (fun k => k ≠ [])).Nodup

instance (s : List Char) : Decidable (dupFreeLines s) :=
  inferInstanceAs (Decidable (List.Nodup _))

/-- No parenthesised span (one that contains no inner closing
parenthesis) containing four consecutive digits survives — the
year-citation absence invariant.  `badParenAt cs` checks a span opening
at the head of `cs`. -/
def badParenAt (cs : List Char) : Bool :=
  let inner := cs.takeWhile (fun d => d != ')')
  decide (inner.length < cs.length) && hasYear4 inner

def yearParenFree : List Char → Bool
  | [] => true
  | c :: cs => (if c = '(' then !badParenAt cs else true) && yearParenFree cs

/-- No two consecutive line breaks. -/
def noDblNl : List Char → Bool
  | [] => true
  | [_] => true
  | a :: b :: cs => !(a == '\n' && b == '\n') && noDblNl (b :: cs)

/-! ### Claims C1, C2, C3 (driver pipeline and normalizer) -/

/-- Claim C1, counterexample: on the raw text `"Hello  world"` the batch
loop's Citation Stripper input is the raw text itself, so its cleaned
text retains the double space, while the claimed
`stripCitations(normalize(rawText))` pipeline collapses it — the two
pipelines do not agree, because the loop never invokes
`clean_pdf_text`. -/
theorem c1_counterexample :
    (processDocument (fun _ => "") "Hello  world").clean_text ≠
      (processDocumentSpec (fun _ => "") "Hello  world").clean_text := by
  decide

/-- Claim C1 (amended): the batch loop passes the raw extracted text
directly to `strip_citations_and_references`; `clean_pdf_text` is
defined but never invoked, so the per-document pipeline computes
`stripCitations(rawText)` and agrees with the claimed
`stripCitations(normalize(rawText))` exactly on texts the normalizer
leaves unchanged. -/
theorem c1_no_normalize_in_loop (modelFn : String → String) (raw : String)
    (h : clean_pdf_text raw = raw) :
    processDocument modelFn raw = processDocumentSpec modelFn raw := by
  simp only [processDocument, processDocumentSpec, h]

theorem c1_no_normalize_in_loop_witness :
    processDocument (fun _ => "reply") "Hello world" =
      processDocumentSpec (fun _ => "reply") "Hello world" :=
  c1_no_normalize_in_loop (fun _ => "reply") "Hello world" (by decide)

/-- Claim C2, counterexample: `clean_pdf_text` is not idempotent.  On
`"foo-\n\nBar"` the first pass only removes the blank line (the
dehyphenation pattern does not fire across a blank line), producing
`"foo-\nBar"`; the second pass then dehyphenates to `"fooBar"`. -/
theorem c2_counterexample :
    clean_pdf_text (clean_pdf_text "foo-\n\nBar") ≠ clean_pdf_text "foo-\n\nBar" := by
  decide

/-- Claim C2 (amended): `clean_pdf_text` is idempotent only on its fixed
points — already-clean text is reproduced identically — but not in
general: removing a blank line can expose a `-\n` junction (or a
lower-case line start) that the next pass rewrites, as in the
counterexample. -/
theorem c2_idempotent_on_fixed_points (x : String) (h : clean_pdf_text x = x) :
    clean_pdf_text (clean_pdf_text x) = clean_pdf_text x := by
  rw [h, h]

theorem c2_idempotent_on_fixed_points_witness :
    clean_pdf_text (clean_pdf_text "Hello world") = clean_pdf_text "Hello world" :=
  c2_idempotent_on_fixed_points "Hello world" (by decide)

/-- Claim C3, counterexample: the deduplication pass (pass 4) runs
before horizontal-whitespace collapsing (pass 5a), so two lines that
differ only in interior spacing are both kept and then collapse to the
same line: the normalizer output for `"Foo  Bar\nFoo Bar"` is
`"Foo Bar\nFoo Bar"`, which has two identical non-empty lines. -/
theorem c3_counterexample :
    ¬ dupFreeLines (cleanPdfTextL ("Foo  Bar\nFoo Bar".data)) := by
  decide

/-- Helper for the amended C3: a line kept by the deduplication pass has
a key not in `seen` and a non-empty key. -/
theorem dedupeLinesA_key_fresh (ls : List (List Char)) :
    ∀ (seen : List (List Char)) (l : List Char), l ∈ dedupeLinesA seen ls →
      dkey l ∉ seen ∧ dkey l ≠ [] := by
  induction ls with
  | nil => intro seen l h; simp [dedupeLinesA] at h
  | cons line rest ih =>
    intro seen l h
    simp only [dedupeLinesA] at h
    by_cases hc : (!(stripWS line).isEmpty && !seen.contains (lowerL (stripWS line))) = true
    · rw [if_pos hc] at h
      rcases List.mem_cons.mp h with rfl | hmem
      · refine ⟨?_, ?_⟩
        · have := (Bool.and_eq_true _ _).mp hc |>.2
          simpa [dkey] using this
        · have h1 := (Bool.and_eq_true _ _).mp hc |>.1
          simp only [Bool.not_eq_eq_eq_not, Bool.not_true, List.isEmpty_eq_false] at h1
          simp [dkey, lowerL, h1]
      · have := ih _ _ hmem
        exact ⟨fun hin => this.1 (List.mem_cons_of_mem _ hin), this.2⟩
    · rw [if_neg hc] at h
      exact ih _ _ h
  
/-- Claim C3 (amended): immediately after the deduplication pass, the
kept lines do have pairwise-distinct, non-empty stripped lower-cased
keys; the duplicate-freeness is an invariant of that pass's output, not
of the final normalizer output (pass 5a can re-merge distinct lines, as
the counterexample shows). -/
theorem c3_dedupe_output_dupfree (ls : List (List Char)) :
    ((dedupeLines ls).map dkey).Nodup ∧ ∀ l ∈ dedupeLines ls, dkey l ≠ [] := by
  constructor
  · suffices h : ∀ seen : List (List Char), ((dedupeLinesA seen ls).map dkey).Nodup by
      exact h []
    induction ls with
    | nil => intro seen; simp [dedupeLinesA]
    | cons line rest ih =>
      intro seen
      simp only [dedupeLinesA]
      by_cases hc : (!(stripWS line).isEmpty && !seen.contains (lowerL (stripWS line))) = true
      · rw [if_pos hc]
        simp only [List.map_cons, List.nodup_cons]
        refine ⟨?_, ih _⟩
        intro hmem
        rcases List.mem_map.mp hmem with ⟨l, hl, hkey⟩
        have := (dedupeLinesA_key_fresh rest _ l hl).1
        exact this (by simp only [dkey] at hkey ⊢; rw [hkey]; exact List.mem_cons_self _ _)
      · rw [if_neg hc]; exact ih _
  · intro l hl
    exact (dedupeLinesA_key_fresh ls [] l hl).2

theorem c3_dedupe_output_dupfree_witness :
    dkey ("A".data) ≠ [] :=
  (c3_dedupe_output_dupfree [("A".data)]).2 ("A".data) (by decide)

/-! ### Claim C6 — Model Client retry policy -/

/-- Claim C6 (confirmed): with the default `retries = 3` and a transport
that fails on every attempt, `query_ollama` performs exactly 3 attempts
with a 1-second sleep between consecutive attempts (two sleeps), and
returns the sentinel `"[ERROR] " ++ message` of the final attempt.  The
embedding is a total function, so no exception escapes by
construction. -/
theorem c6_retry_sentinel (transport : Nat → Except String String) (msg : Nat → String)
    (h : ∀ i, i < 3 → transport i = .error (msg i)) :
    query_ollama transport 3 =
      { result := some ("[ERROR] " ++ msg 2), attempts := 3, sleeps := [1, 1] } := by
  have h0 := h 0 (by omega)
  have h1 := h 1 (by omega)
  have h2 := h 2 (by omega)
  simp [query_ollama, queryOllamaA, h0, h1, h2]

theorem c6_retry_sentinel_witness :
    query_ollama (fun _ => .error "connection refused") 3 =
      { result := some ("[ERROR] " ++ "connection refused"), attempts := 3,
        sleeps := [1, 1] } :=
  c6_retry_sentinel (fun _ => .error "connection refused") (fun _ => "connection refused")
    (fun _ _ => rfl)

/-! ### Claim C10 — the `\n`-escape corruption in `clean_json` -/

/-- Claim C10 (confirmed): `clean_json`'s preprocessing rewrites the
two-character sequence `\` `n` to a literal newline; on the reply
`{"a": "x\ny"}` — a single well-formed JSON object whose string value
contains a `\n` escape — the rewrite produces a raw control character
inside the string literal, the strict JSON parse fails, and the
recoverer returns the empty mapping instead of the object's field. -/
theorem c10_escape_corruption :
    cleanJsonPre ("\x7b\"a\": \"x\\ny\"\x7d".data) = ("\x7b\"a\": \"x\ny\"\x7d".data) ∧
    parseJson ("\x7b\"a\": \"x\\ny\"\x7d".data) = some (.obj [("a", .str "x\ny")]) ∧
    clean_json "\x7b\"a\": \"x\\ny\"\x7d" = .obj [] :=
  ⟨rfl, rfl, rfl⟩

/-! ### Claims C4, C5 — Citation Stripper (counterexamples) -/

/-- Claim C4, counterexample: the heading pattern requires a newline
*before* the heading line, so a text that *starts* with a `References`
line is not truncated at all, while the claim demands that everything
from that line onward be removed (which here would leave the empty
string). -/
theorem c4_counterexample :
    strip_citations_and_references "References\nSmith, J." ≠ "" := by
  decide

/-- Claim C5, counterexample: removing the numeric bracket citation
`[12]` *after* the parenthetical pass splices the digits `19` and `20`
together, re-creating a parenthetical group with a 4-digit token:
`stripCitations "(19[12]20)" = "(1920)"`. -/
theorem c5_counterexample :
    strip_citations_and_references "(19[12]20)" = "(1920)" ∧
    yearParenFree ("(1920)".data) = false := by
  exact ⟨by decide, by decide⟩

/-! ### Claim C7 — recoverer failure safety -/

theorem findSub_none_of_not_mem {a : Char} {t : List Char} (h : a ∉ t) :
    findSub [a] t = none := by
  induction t with
  | nil => simp [findSub]
  | cons c cs ih =>
    have hne : a ≠ c := fun e => h (e ▸ List.mem_cons_self c cs)
    have hcs : a ∉ cs := fun e => h (List.mem_cons_of_mem c e)
    simp [findSub, List.isPrefixOf, hne, ih hcs, Ne.symm hne]

theorem findSub_single_spec {a : Char} {l : List Char} {p : Nat}
    (h : findSub [a] l = some p) :
    ∃ pre post, l = pre ++ a :: post ∧ pre.length = p := by
  induction l generalizing p with
  | nil => simp [findSub] at h
  | cons c cs ih =>
    by_cases hpre : [a].isPrefixOf (c :: cs) = true
    · have hac : a = c := by simpa [List.isPrefixOf] using hpre
      simp only [findSub, hpre, if_true] at h
      cases h
      exact ⟨[], cs, by simp [hac], rfl⟩
    · simp only [findSub, hpre] at h
      cases hf : findSub [a] cs with
      | none => rw [hf] at h; simp at h
      | some q =>
        rw [hf] at h
        simp only [Option.map_some'] at h
        have hqp : q + 1 = p := by injection h
        obtain ⟨pre, post, rfl, hlen⟩ := ih hf
        exact ⟨c :: pre, post, rfl, by simp [hlen, hqp]⟩

/-- With no `{` in the preprocessed text, the brace slice degenerates to
the empty string (when there is no `}`, or when the last `}` is not the
last character) or to the single character `}`. -/
theorem braceSlice_no_open {t : List Char} (h : '{' ∉ t) :
    braceSlice t = [] ∨ braceSlice t = ['}'] := by
  have hfind : pyFind t '{' = -1 := by
    unfold pyFind
    rw [findSub_none_of_not_mem h]
  unfold braceSlice
  rw [hfind]
  cases hf : findSub ['}'] t.reverse with
  | none =>
    left
    have hr : pyRFind t '}' = -1 := by unfold pyRFind; rw [hf]
    rw [hr]
    unfold pySlice
    norm_num
  | some p =>
    obtain ⟨pre, post, hrev, hlen⟩ := findSub_single_spec hf
    have ht : t = post.reverse ++ '}' :: pre.reverse := by
      have h2 := congrArg List.reverse hrev
      rw [List.reverse_reverse] at h2
      rw [h2]
      simp
    have hn : t.length = post.length + 1 + pre.length := by
      rw [ht]; simp; omega
    have hr : pyRFind t '}' = (t.length : Int) - 1 - (p : Int) := by
      unfold pyRFind; rw [hf]
    rw [hr]
    unfold pySlice
    have h2 : (-1 : Int) < 0 := by omega
    rw [if_pos h2]
    by_cases hp : p = 0
    · right
      subst hp
      have hpre : pre = [] := List.eq_nil_of_length_eq_zero hlen
      subst hpre
      have hlen2 : t.length = post.length + 1 := by simpa using hn
      have h1 : ¬ (((t.length : Int) - 1 - ((0 : Nat) : Int) + 1) < 0) := by
        push_cast
        omega
      rw [if_neg h1]
      have h3 : min ((t.length : Int) - 1 - ((0 : Nat) : Int) + 1) (t.length : Int) =
          (t.length : Int) := by push_cast; omega
      have h4 : max (-1 + (t.length : Int)) 0 = (t.length : Int) - 1 := by omega
      rw [h3, h4]
      have h5 : ((t.length : Int)).toNat = t.length := by omega
      have h6 : ((t.length : Int) - 1).toNat = t.length - 1 := by omega
      rw [h5, h6, List.take_length]
      rw [ht]
      simp only [List.reverse_nil]
      have h7 : (post.reverse ++ '}' :: ([] : List Char)).length - 1 =
          post.reverse.length := by simp
      rw [h7]
      have h8 : post.reverse ++ '}' :: ([] : List Char) = post.reverse ++ ['}'] := rfl
      rw [h8, List.drop_left]
    · left
      -- the last `}` is not the final character: the slice start (the last
      -- index) is at or beyond the slice stop, so the slice is empty
      have h1 : ¬ (((t.length : Int) - 1 - (p : Int) + 1) < 0) := by omega
      rw [if_neg h1]
      have h3 : min ((t.length : Int) - 1 - (p : Int) + 1) (t.length : Int) =
          (t.length : Int) - (p : Int) := by omega
      have h4 : max (-1 + (t.length : Int)) 0 = (t.length : Int) - 1 := by omega
      rw [h3, h4]
      apply List.drop_eq_nil_of_le
      have h5 : (t.take ((t.length : Int) - (p : Int)).toNat).length ≤ t.length - p := by
        simp only [List.length_take]
        omega
      omega

/-- Claim C7 (confirmed): `clean_json` is a total function that returns
the empty mapping whenever the brace-delimited slice of the preprocessed
reply fails to parse as JSON; in particular, when the preprocessed reply
contains no `{` at all, the slice degenerates and the result is the
empty mapping (totality itself holds by construction of the
embedding). -/
theorem c7_recover_failure_safety (s : String) :
    ('{' ∉ cleanJsonPre s.data → clean_json s = .obj []) ∧
    (parseJson (braceSlice (cleanJsonPre s.data)) = none → clean_json s = .obj []) := by
  constructor
  · intro h
    unfold clean_json cleanJsonL
    rcases braceSlice_no_open h with he | he <;> rw [he] <;> rfl
  · intro h
    unfold clean_json cleanJsonL
    rw [h]

theorem c7_recover_failure_safety_witness :
    clean_json "no json here" = .obj [] :=
  (c7_recover_failure_safety "no json here").1 (by decide)

/-! ### Claim C4 — reference-section truncation -/

theorem toLower_ws {v : Char} (h : pyWS v = true) : Char.toLower v = v := by
  have h6 : v = ' ' ∨ v = '\t' ∨ v = '\n' ∨ v = '\x0d' ∨ v = '\x0b' ∨ v = '\x0c' := by
    simpa [pyWS, or_assoc] using h
  rcases h6 with h | h | h | h | h | h <;> subst h <;> decide

theorem heading_head {V : List Char} (hV : lowerL V ∈ refHeadings) :
    V ≠ [] ∧ pyWS (V.headD ' ') = false := by
  have hlow : (lowerL V).headD ' ' = 'r' ∨ (lowerL V).headD ' ' = 'b' ∨
      (lowerL V).headD ' ' = 'w' := by
    simp only [refHeadings, List.mem_cons, List.not_mem_nil, or_false] at hV
    rcases hV with h | h | h
    · left; rw [h]; decide
    · right; left; rw [h]; decide
    · right; right; rw [h]; decide
  have hne : V ≠ [] := by
    intro he
    subst he
    simp only [lowerL, List.map_nil, List.headD_nil] at hlow
    rcases hlow with h | h | h <;> simp at h
  obtain ⟨v, V', rfl⟩ := List.exists_cons_of_ne_nil hne
  refine ⟨hne, ?_⟩
  have hh : Char.toLower v = 'r' ∨ Char.toLower v = 'b' ∨ Char.toLower v = 'w' := by
    simpa [lowerL] using hlow
  by_cases hw : pyWS v = true
  · rw [toLower_ws hw] at hh
    rcases hh with h | h | h <;> rw [h] at hw <;> exact absurd hw (by decide)
  · simpa using hw

theorem dropWhile_append_all {p : Char → Bool} {a b : List Char}
    (h : ∀ c ∈ a, p c = true) :
    (a ++ b).dropWhile p = b.dropWhile p := by
  induction a with
  | nil => rfl
  | cons c cs ih =>
    have hc := h c (List.mem_cons_self c cs)
    simp only [List.cons_append, List.dropWhile_cons, hc, if_true]
    exact ih (fun d hd => h d (List.mem_cons_of_mem c hd))

theorem dropWhile_of_head_neg {p : Char → Bool} {l : List Char}
    (hne : l ≠ []) (h : p (l.headD ' ') = false) : l.dropWhile p = l := by
  cases l with
  | nil => rfl
  | cons c cs => simp only [List.headD_cons] at h; simp [List.dropWhile_cons, h]

theorem matchWordCI_exact {V rest : List Char} {w : List Char}
    (h : lowerL V = w) : matchWordCI w (V ++ rest) = some rest := by
  induction V generalizing w with
  | nil => subst h; rfl
  | cons v V' ih =>
    subst h
    simp only [lowerL, List.map_cons, List.cons_append, matchWordCI, if_pos rfl]
    exact ih rfl

theorem refMatchAt_heading (B : List Char) {ws1 V ws2 : List Char}
    (h1 : ∀ c ∈ ws1, pyWS c = true ∧ c ≠ '\n')
    (h2 : ∀ c ∈ ws2, pyWS c = true ∧ c ≠ '\n')
    (hV : lowerL V ∈ refHeadings) :
    refMatchAt ('\n' :: (ws1 ++ (V ++ (ws2 ++ '\n' :: B)))) = true := by
  obtain ⟨hne, hhead⟩ := heading_head hV
  have hdrop : (ws1 ++ (V ++ (ws2 ++ '\n' :: B))).dropWhile pyWS =
      V ++ (ws2 ++ '\n' :: B) := by
    rw [dropWhile_append_all (fun c hc => (h1 c hc).1)]
    exact dropWhile_of_head_neg (by cases V <;> simp_all) (by cases V <;> simp_all)
  have hd2 : (ws2 ++ '\n' :: B).dropWhile (fun d => pyWS d && d != '\n') = '\n' :: B := by
    rw [dropWhile_append_all (fun c hc => by simp [(h2 c hc).1, (h2 c hc).2])]
    simp [List.dropWhile_cons]
  unfold refMatchAt
  simp only [Bool.and_eq_true, decide_eq_true_eq]
  refine ⟨trivial, ?_⟩
  rw [hdrop, List.any_eq_true]
  refine ⟨lowerL V, hV, ?_⟩
  rw [matchWordCI_exact rfl, Option.map_some', Option.getD_some, refTailOk, hd2]
  simp

theorem refFindA_exists_le (A : List Char) {rest : List Char}
    (h : refMatchAt rest = true) :
    ∃ p ≤ A.length, refFindA (A ++ rest) = some p := by
  induction A with
  | nil =>
    cases rest with
    | nil => simp [refMatchAt] at h
    | cons c cs =>
      exact ⟨0, Nat.le_refl 0, by simp [refFindA, h]⟩
  | cons a A' ih =>
    by_cases hm : refMatchAt (a :: (A' ++ rest)) = true
    · exact ⟨0, Nat.zero_le _, by rw [List.cons_append, refFindA, if_pos hm]⟩
    · obtain ⟨p, hp, heq⟩ := ih
      refine ⟨p + 1, by simpa using Nat.succ_le_succ hp, ?_⟩
      rw [List.cons_append, refFindA, if_neg hm, heq, Option.map_some']

/-- Claim C4 (amended): the heading pattern requires the heading line to
be an *interior* line — preceded by a line break and followed by a line
break.  For such a line (whitespace, then a case variant of
`References`/`Bibliography`/`Works Cited`, then whitespace), the
reference-splitting step keeps only a prefix of the text before the line
break that precedes the heading; a heading line at the very start of the
text, or a final line not followed by a line break, is not recognized
(see the counterexample). -/
theorem c4_drop_after_interior_heading (A ws1 V ws2 B : List Char)
    (h1 : ∀ c ∈ ws1, pyWS c = true ∧ c ≠ '\n')
    (h2 : ∀ c ∈ ws2, pyWS c = true ∧ c ≠ '\n')
    (hV : lowerL V ∈ refHeadings) :
    ∃ k ≤ A.length,
      dropAfterRefs (A ++ '\n' :: ((ws1 ++ V ++ ws2) ++ '\n' :: B)) = A.take k := by
  have hmatch : refMatchAt ('\n' :: ((ws1 ++ V ++ ws2) ++ '\n' :: B)) = true := by
    have hm := refMatchAt_heading B h1 h2 hV
    simpa [List.append_assoc] using hm
  obtain ⟨p, hp, heq⟩ := refFindA_exists_le A hmatch
  refine ⟨p, hp, ?_⟩
  unfold dropAfterRefs
  rw [heq]
  show List.take p (A ++ '\n' :: ((ws1 ++ V ++ ws2) ++ '\n' :: B)) = A.take p
  rw [List.take_append_of_le_length hp]

theorem c4_drop_after_interior_heading_witness :
    ∃ k ≤ ("Body text.".data).length,
      dropAfterRefs ("Body text.".data ++ '\n' ::
        (([] ++ "References".data ++ []) ++ '\n' :: "Smith, J. .".data)) =
        ("Body text.".data).take k :=
  c4_drop_after_interior_heading "Body text.".data [] "References".data [] "Smith, J. .".data
    (by intro c hc; simp at hc) (by intro c hc; simp at hc) (by decide)

/-! ### Claim C5 — year-parenthetical removal -/

theorem hasYear4_cons {cs : List Char} (x : Char) (h : hasYear4 cs = true) :
    hasYear4 (x :: cs) = true := by
  match cs, h with
  | a :: b :: c :: d :: t, h => simp only [hasYear4] at h ⊢; simp [h]
  | [], h => simp [hasYear4] at h
  | [a], h => simp [hasYear4] at h
  | [a, b], h => simp [hasYear4] at h
  | [a, b, c], h => simp [hasYear4] at h

theorem hasYear4_tail {x : Char} {cs : List Char} (h : hasYear4 (x :: cs) = false) :
    hasYear4 cs = false := by
  cases hy : hasYear4 cs with
  | false => rfl
  | true => rw [hasYear4_cons x hy] at h; simp at h

theorem takeWhile_append_elem {p : Char → Bool} {i r : List Char} {x : Char}
    (hall : ∀ c ∈ i, p c = true) (hx : p x = false) :
    (i ++ x :: r).takeWhile p = i := by
  induction i with
  | nil => simp [List.takeWhile_cons, hx]
  | cons c i' ih =>
    have hc := hall c (List.mem_cons_self c i')
    simp only [List.cons_append, List.takeWhile_cons, hc, if_true]
    rw [ih (fun d hd => hall d (List.mem_cons_of_mem c hd))]

theorem takeWhile_all_of_full {p : Char → Bool} {l : List Char}
    (h : (l.takeWhile p).length = l.length) : ∀ c ∈ l, p c = true := by
  induction l with
  | nil => intro c hc; simp at hc
  | cons a l' ih =>
    by_cases hp : p a = true
    · intro c hc
      simp only [List.takeWhile_cons, hp, if_true, List.length_cons] at h
      rcases List.mem_cons.mp hc with rfl | hc'
      · exact hp
      · exact ih (by omega) c hc'
    · exfalso
      have hpa : p a = false := by simpa using hp
      rw [List.takeWhile_cons, hpa] at h
      simp at h

theorem takeWhile_of_all {p : Char → Bool} {l : List Char}
    (h : ∀ c ∈ l, p c = true) : l.takeWhile p = l := by
  induction l with
  | nil => rfl
  | cons a l' ih =>
    simp only [List.takeWhile_cons, h a (List.mem_cons_self a l'), if_true]
    rw [ih (fun c hc => h c (List.mem_cons_of_mem a hc))]

theorem takeWhile_decomp {p : Char → Bool} {cs : List Char}
    (h : (cs.takeWhile p).length < cs.length) :
    ∃ x rest, p x = false ∧ cs = cs.takeWhile p ++ x :: rest := by
  induction cs with
  | nil => simp at h
  | cons a cs' ih =>
    by_cases hp : p a = true
    · simp only [List.takeWhile_cons, hp, if_true, List.length_cons] at h ⊢
      obtain ⟨x, rest, hx, he⟩ := ih (by omega)
      exact ⟨x, rest, hx, by rw [List.cons_append, ← he]⟩
    · refine ⟨a, cs', by simpa using hp, ?_⟩
      simp [List.takeWhile_cons, hp]

/-- Unfolding equations of the parenthetical scanner. -/
theorem rmp_hit (f : Nat) (cs : List Char)
    (h : (decide ((cs.takeWhile (fun d => d != ')')).length < cs.length) &&
        hasYear4 (cs.takeWhile (fun d => d != ')'))) = true) :
    rmParenYearsF (f + 1) ('(' :: cs) =
      rmParenYearsF f (cs.drop ((cs.takeWhile (fun d => d != ')')).length + 1)) := by
  simp only [rmParenYearsF, if_true]
  rw [if_pos h]

theorem rmp_miss (f : Nat) (cs : List Char)
    (h : (decide ((cs.takeWhile (fun d => d != ')')).length < cs.length) &&
        hasYear4 (cs.takeWhile (fun d => d != ')'))) = false) :
    rmParenYearsF (f + 1) ('(' :: cs) = '(' :: rmParenYearsF f cs := by
  simp only [rmParenYearsF, if_true]
  rw [if_neg (by rw [h]; simp)]

theorem rmp_other (f : Nat) (c : Char) (cs : List Char) (h : c ≠ '(') :
    rmParenYearsF (f + 1) (c :: cs) = c :: rmParenYearsF f cs := by
  simp only [rmParenYearsF]
  rw [if_neg h]

theorem rmParenYearsF_sublist : ∀ (f : Nat) (s : List Char), List.Sublist (rmParenYearsF f s) s := by
  intro f
  induction f with
  | zero => intro s; exact List.Sublist.refl s
  | succ f ih =>
    intro s
    match s with
    | [] => simp [rmParenYearsF]
    | c :: cs =>
      by_cases hc : c = '('
      · subst hc
        cases hb : (decide ((cs.takeWhile (fun d => d != ')')).length < cs.length) &&
            hasYear4 (cs.takeWhile (fun d => d != ')'))) with
        | true =>
          rw [rmp_hit f cs hb]
          exact List.Sublist.cons _ ((ih _).trans (List.drop_sublist _ _))
        | false =>
          rw [rmp_miss f cs hb]
          exact List.Sublist.cons₂ _ (ih cs)
      · rw [rmp_other f c cs hc]
        exact List.Sublist.cons₂ _ (ih cs)

/-- Scanning a span with no closing parenthesis and no 4-digit run
passes it through unchanged up to its closing parenthesis. -/
theorem rmParenYearsF_skip_span :
    ∀ (i : List Char) (f : Nat) (rest : List Char),
      (i ++ ')' :: rest).length ≤ f →
      (∀ c ∈ i, c ≠ ')') → hasYear4 i = false →
      rmParenYearsF f (i ++ ')' :: rest) =
        i ++ ')' :: rmParenYearsF (f - (i.length + 1)) rest := by
  intro i
  induction i with
  | nil =>
    intro f rest hf _ _
    simp only [List.nil_append, List.length_cons] at hf
    obtain ⟨f', rfl⟩ : ∃ f', f = f' + 1 := ⟨f - 1, by omega⟩
    rw [List.nil_append, rmp_other f' ')' rest (by decide)]
    simp
  | cons d i' ih =>
    intro f rest hf hno hy
    have hlen1 : 1 ≤ (d :: i' ++ ')' :: rest).length := by simp
    obtain ⟨f', rfl⟩ : ∃ f', f = f' + 1 := ⟨f - 1, by omega⟩
    have hno' : ∀ c ∈ i', c ≠ ')' := fun c hc => hno c (List.mem_cons_of_mem d hc)
    have hy' : hasYear4 i' = false := hasYear4_tail hy
    have hinner : ((i' ++ ')' :: rest).takeWhile (fun d => d != ')')) = i' :=
      takeWhile_append_elem (fun c hc => by simpa using hno' c hc) (by simp)
    have hstep : rmParenYearsF (f' + 1) ((d :: i') ++ ')' :: rest) =
        d :: rmParenYearsF f' (i' ++ ')' :: rest) := by
      by_cases hd : d = '('
      · subst hd
        rw [List.cons_append, rmp_miss f' (i' ++ ')' :: rest) (by rw [hinner, hy']; simp)]
      · rw [List.cons_append, rmp_other f' d (i' ++ ')' :: rest) hd]
    have hf' : (i' ++ ')' :: rest).length ≤ f' := by
      simp only [List.cons_append, List.length_cons, List.length_append] at hf ⊢
      omega
    have hfeq : f' - (i'.length + 1) = (f' + 1) - ((d :: i').length + 1) := by
      simp only [List.length_cons]
      omega
    rw [hstep, ih f' rest hf' hno' hy', List.cons_append, hfeq]

/-- A clean span prepended to a clean tail stays clean. -/
theorem yearParenFree_span {i out : List Char}
    (hno : ∀ c ∈ i, c ≠ ')') (hy : hasYear4 i = false)
    (hout : yearParenFree out = true) :
    yearParenFree (i ++ ')' :: out) = true := by
  induction i with
  | nil => simp [yearParenFree, hout]
  | cons d i' ih =>
    have hno' : ∀ c ∈ i', c ≠ ')' := fun c hc => hno c (List.mem_cons_of_mem d hc)
    have hy' : hasYear4 i' = false := hasYear4_tail hy
    rw [List.cons_append, yearParenFree, ih hno' hy', Bool.and_true]
    by_cases hd : d = '('
    · rw [if_pos hd]
      have hinner : ((i' ++ ')' :: out).takeWhile (fun d => d != ')')) = i' :=
        takeWhile_append_elem (fun c hc => by simpa using hno' c hc) (by simp)
      simp [badParenAt, hinner, hy']
    · rw [if_neg hd]

/-- Claim C5 (amended): after the parenthetical-citation pass alone, no
parenthesised span containing a 4-digit token remains; the invariant is
broken only by the *subsequent* numeric-bracket pass, which can splice
digit runs together (see the counterexample `"(19[12]20)"`). -/
theorem c5_paren_pass_year_free (s : String) :
    yearParenFree (rmParenYears s.data) = true := by
  suffices h : ∀ (f : Nat), ∀ (t : List Char), t.length ≤ f →
      yearParenFree (rmParenYearsF f t) = true by
    exact h _ _ (Nat.le_refl _)
  intro f
  induction f using Nat.strong_induction_on with
  | _ f ih =>
    intro t ht
    match f, t with
    | f, [] =>
      cases f <;> simp [rmParenYearsF, yearParenFree]
    | 0, c :: cs => simp at ht
    | f + 1, c :: cs =>
      simp only [List.length_cons] at ht
      by_cases hc : c = '('
      · subst hc
        cases hb : (decide ((cs.takeWhile (fun d => d != ')')).length < cs.length) &&
            hasYear4 (cs.takeWhile (fun d => d != ')'))) with
        | true =>
          rw [rmp_hit f cs hb]
          exact ih f (by omega) _ (by simp only [List.length_drop]; omega)
        | false =>
          rw [rmp_miss f cs hb]
          rw [Bool.and_eq_false_iff] at hb
          by_cases hclose : (cs.takeWhile (fun d => d != ')')).length < cs.length
          · -- a closing parenthesis exists, so the span has no 4-digit run
            have hy : hasYear4 (cs.takeWhile (fun d => d != ')')) = false := by
              rcases hb with hb | hb
              · exact absurd hclose (by simpa using hb)
              · exact hb
            obtain ⟨x, rest, hx, hdecomp⟩ := takeWhile_decomp hclose
            have hxp : x = ')' := by simpa using hx
            subst hxp
            have hno : ∀ d ∈ cs.takeWhile (fun d => d != ')'), d ≠ ')' := by
              intro d hd
              simpa using List.mem_takeWhile_imp hd
            have hlen : (cs.takeWhile (fun d => d != ')') ++ ')' :: rest).length ≤ f := by
              rw [← hdecomp]; omega
            rw [hdecomp, rmParenYearsF_skip_span _ f rest hlen hno hy]
            have hout : yearParenFree
                (rmParenYearsF (f - ((cs.takeWhile (fun d => d != ')')).length + 1))
                  rest) = true := by
              apply ih _ (by omega)
              have : cs.length = (cs.takeWhile (fun d => d != ')')).length + 1 +
                  rest.length := by
                conv_lhs => rw [hdecomp]
                simp
                omega
              omega
            have hfree := yearParenFree_span hno hy hout
            simp only [yearParenFree, if_pos rfl, hfree, Bool.and_true]
            have hinner2 : ((cs.takeWhile (fun d => d != ')') ++ ')' ::
                (rmParenYearsF (f - ((cs.takeWhile (fun d => d != ')')).length + 1))
                  rest)).takeWhile (fun d => d != ')')) =
                cs.takeWhile (fun d => d != ')') :=
              takeWhile_append_elem (fun c hc => by simpa using hno c hc) (by simp)
            simp [badParenAt, hinner2, hy]
          · -- no closing parenthesis anywhere after this point
            have hfull : (cs.takeWhile (fun d => d != ')')).length = cs.length := by
              have hle : (cs.takeWhile (fun d => d != ')')).length ≤ cs.length :=
                (List.takeWhile_sublist (fun d => d != ')')).length_le
              omega
            have hallcs : ∀ d ∈ cs, d ≠ ')' := by
              intro d hd
              simpa using takeWhile_all_of_full hfull d hd
            have hout : yearParenFree (rmParenYearsF f cs) = true :=
              ih f (by omega) cs (by omega)
            have hallout : ∀ d ∈ rmParenYearsF f cs, (d != ')') = true := by
              intro d hd
              simpa using hallcs d ((rmParenYearsF_sublist f cs).subset hd)
            simp only [yearParenFree, if_pos rfl, hout, Bool.and_true]
            simp [badParenAt, takeWhile_of_all hallout]
      · rw [rmp_other f c cs hc]
        simp only [yearParenFree, if_neg hc, Bool.true_and]
        exact ih f (by omega) cs (by omega)

/-! ### Claim C8 — prompt truncation -/

/-- No occurrence of `pat` at any position of the text (tail-recursive
so that it evaluates on the long template by iterated reduction). -/
def noOccB (pat : List Char) : List Char → Bool
  | [] => true
  | c :: cs => if pat.isPrefixOf (c :: cs) then false else noOccB pat cs

/-- No occurrence of `pat` starting at any position inside `pre`
(occurrences may look into the following `tail`); tail-recursive. -/
def scanOkB (pat : List Char) : List Char → List Char → Bool
  | [], _ => true
  | c :: cs, tail => if pat.isPrefixOf (c :: cs ++ tail) then false else scanOkB pat cs tail

theorem isPrefixOf_append_self : ∀ (l r : List Char), l.isPrefixOf (l ++ r) = true := by
  intro l r
  induction l with
  | nil => simp [List.isPrefixOf]
  | cons c l' ih => simp [List.isPrefixOf, ih]

theorem replaceAllF_of_noOcc {pat repl s : List Char} (h : noOccB pat s = true) :
    ∀ f, replaceAllF pat repl f s = s := by
  induction s with
  | nil => intro f; cases f <;> rfl
  | cons c cs ih =>
    intro f
    cases f with
    | zero => rfl
    | succ f =>
      by_cases hp : pat.isPrefixOf (c :: cs) = true
      · rw [noOccB, if_pos hp] at h
        simp at h
      · rw [noOccB, if_neg hp] at h
        simp only [replaceAllF]
        rw [if_neg hp, ih h f]

theorem replaceAllF_boundary {pat : List Char} (repl : List Char) (hpat : pat ≠ []) :
    ∀ (pre post : List Char) (f : Nat),
      (pre ++ pat ++ post).length ≤ f →
      scanOkB pat pre (pat ++ post) = true →
      noOccB pat post = true →
      replaceAllF pat repl f (pre ++ pat ++ post) = pre ++ repl ++ post := by
  intro pre
  induction pre with
  | nil =>
    intro post f hf _ hpost
    simp only [List.nil_append] at hf ⊢
    obtain ⟨p0, pat', rfl⟩ := List.exists_cons_of_ne_nil hpat
    obtain ⟨f', rfl⟩ : ∃ f', f = f' + 1 := ⟨f - 1, by simp at hf; omega⟩
    have hcons : (p0 :: pat') ++ post = p0 :: (pat' ++ post) := rfl
    rw [hcons]
    simp only [replaceAllF, ← hcons, isPrefixOf_append_self, if_true]
    rw [show ((p0 :: pat') ++ post).drop (p0 :: pat').length = post from
      List.drop_left _ _]
    rw [replaceAllF_of_noOcc hpost f']
  | cons a pre' ih =>
    intro post f hf hscan hpost
    obtain ⟨f', rfl⟩ : ∃ f', f = f' + 1 := ⟨f - 1, by simp at hf; omega⟩
    by_cases hp : pat.isPrefixOf (a :: pre' ++ (pat ++ post)) = true
    · rw [scanOkB, if_pos hp] at hscan
      simp at hscan
    · rw [scanOkB, if_neg hp] at hscan
      have hassoc : (a :: pre') ++ pat ++ post = a :: (pre' ++ pat ++ post) := by simp
      rw [hassoc]
      simp only [replaceAllF]
      have hcond : ¬ pat.isPrefixOf (a :: (pre' ++ pat ++ post)) = true := by
        intro hcc
        apply hp
        have hb : a :: pre' ++ (pat ++ post) = a :: (pre' ++ pat ++ post) := by simp
        rw [hb]
        exact hcc
      rw [if_neg hcond, ih post f' (by simp at hf ⊢; omega) hscan hpost]
      simp

/-- Claim C8 (confirmed): for cleaned text longer than 30,000
characters, the prompt built by the loop embeds exactly the first 30,000
characters, verbatim, between the fixed template halves (the `{text}`
placeholder occurs exactly once, so nothing after character 30,000
enters the prompt). -/
theorem c8_prompt_truncation (ct : String) (_h : 30000 < ct.length) :
    (buildPrompt (strTake 30000 ct)).data =
      templatePre.data ++ ct.data.take 30000 ++ templatePost.data := by
  have htpl : json_prompt_template.data =
      templatePre.data ++ ("\x7btext\x7d".data ++ templatePost.data) := by
    simp [json_prompt_template, String.data_append]
  have hscan : scanOkB ("\x7btext\x7d".data) templatePre.data
      ("\x7btext\x7d".data ++ templatePost.data) = true := by decide
  have hpost : noOccB ("\x7btext\x7d".data) templatePost.data = true := by decide
  simp only [buildPrompt, strTake, replaceSub]
  rw [htpl, ← List.append_assoc]
  rw [replaceAllF_boundary _ (by decide) _ _ _ (Nat.le_refl _) hscan hpost]

theorem c8_prompt_truncation_witness :
    30000 < (String.mk (List.replicate 30001 'a')).length ∧
    (buildPrompt (strTake 30000 (String.mk (List.replicate 30001 'a')))).data =
      templatePre.data ++ (String.mk (List.replicate 30001 'a')).data.take 30000 ++
        templatePost.data := by
  have hlen : (String.mk (List.replicate 30001 'a')).length = 30001 := by
    show (List.replicate 30001 'a').length = 30001
    rw [List.length_replicate]
  refine ⟨by rw [hlen]; omega, ?_⟩
  exact c8_prompt_truncation (String.mk (List.replicate 30001 'a')) (by rw [hlen]; omega)

/-! ### Claim C9 — normalizer output has no blank lines -/

/-- A line with at least one non-whitespace character. -/
def nonblankB (l : List Char) : Bool := l.any (fun c => !pyWS c)

theorem spTab_pyWS {c : Char} (h : isSpTab c = true) : pyWS c = true := by
  simp only [isSpTab, Bool.or_eq_true, beq_iff_eq] at h
  rcases h with h | h <;> subst h <;> decide

theorem splitNl_ne_nil : ∀ s : List Char, splitNl s ≠ [] := by
  intro s
  cases s with
  | nil => simp [splitNl]
  | cons c cs =>
    by_cases hc : c = '\n'
    · simp [splitNl, hc]
    · simp only [splitNl, if_neg hc]
      cases splitNl cs <;> simp

theorem mem_splitNl_no_nl : ∀ (s l : List Char), l ∈ splitNl s → '\n' ∉ l := by
  intro s
  induction s with
  | nil => intro l hl; simp [splitNl] at hl; simp [hl]
  | cons c cs ih =>
    intro l hl
    by_cases hc : c = '\n'
    · rw [splitNl, if_pos hc] at hl
      rcases List.mem_cons.mp hl with rfl | hl'
      · simp
      · exact ih l hl'
    · rw [splitNl, if_neg hc] at hl
      cases hsp : splitNl cs with
      | nil => exact absurd hsp (splitNl_ne_nil cs)
      | cons h t =>
        rw [hsp] at hl
        rcases List.mem_cons.mp hl with rfl | hl'
        · intro hmem
          rcases List.mem_cons.mp hmem with he | hmem'
          · exact hc he.symm
          · exact ih h (by rw [hsp]; exact List.mem_cons_self _ _) hmem'

        · exact ih l (by rw [hsp]; exact List.mem_cons_of_mem _ hl')

theorem splitNl_of_no_nl {l : List Char} (h : '\n' ∉ l) : splitNl l = [l] := by
  induction l with
  | nil => rfl
  | cons c cs ih =>
    have hc : c ≠ '\n' := fun e => h (by simp [e])
    rw [splitNl, if_neg hc, ih (fun e => h (List.mem_cons_of_mem c e))]

theorem splitNl_append_cons {l : List Char} (r : List Char) (h : '\n' ∉ l) :
    splitNl (l ++ '\n' :: r) = l :: splitNl r := by
  induction l with
  | nil => simp [splitNl]
  | cons c cs ih =>
    have hc : c ≠ '\n' := fun e => h (by simp [e])
    rw [List.cons_append, splitNl, if_neg hc,
      ih (fun e => h (List.mem_cons_of_mem c e))]

theorem splitNl_joinNl : ∀ (L : List (List Char)), L ≠ [] →
    (∀ l ∈ L, '\n' ∉ l) → splitNl (joinNl L) = L := by
  intro L
  induction L with
  | nil => intro h; exact absurd rfl h
  | cons l ls ih =>
    intro _ hnl
    cases ls with
    | nil => exact splitNl_of_no_nl (hnl l (List.mem_cons_self _ _))
    | cons m ms =>
      have h1 : '\n' ∉ l := hnl l (List.mem_cons_self _ _)
      have h2 : splitNl (joinNl (m :: ms)) = m :: ms :=
        ih (List.cons_ne_nil m ms) (fun x hx => hnl x (List.mem_cons_of_mem l hx))
      rw [joinNl, splitNl_append_cons _ h1, h2]
      exact List.cons_ne_nil m ms

theorem mem_dedupeLinesA {l : List Char} : ∀ (seen : List (List Char))
    (ls : List (List Char)), l ∈ dedupeLinesA seen ls → l ∈ ls := by
  intro seen ls
  induction ls generalizing seen with
  | nil => intro h; simp [dedupeLinesA] at h
  | cons line rest ih =>
    intro h
    rw [dedupeLinesA] at h
    by_cases hc : (!(stripWS line).isEmpty &&
        !seen.contains (lowerL (stripWS line))) = true
    · rw [if_pos hc] at h
      rcases List.mem_cons.mp h with rfl | h'
      · exact List.mem_cons_self _ _
      · exact List.mem_cons_of_mem _ (ih _ h')
    · rw [if_neg hc] at h
      exact List.mem_cons_of_mem _ (ih _ h)

theorem dedupe_kept_strip_ne {l : List Char} : ∀ (seen ls : List (List Char)),
    l ∈ dedupeLinesA seen ls → stripWS l ≠ [] := by
  intro seen ls
  induction ls generalizing seen with
  | nil => intro h; simp [dedupeLinesA] at h
  | cons line rest ih =>
    intro h
    rw [dedupeLinesA] at h
    by_cases hc : (!(stripWS line).isEmpty &&
        !seen.contains (lowerL (stripWS line))) = true
    · rw [if_pos hc] at h
      rcases List.mem_cons.mp h with rfl | h'
      · have := (Bool.and_eq_true _ _).mp hc |>.1
        simpa using this
      · exact ih _ h'
    · rw [if_neg hc] at h
      exact ih _ h

theorem dropWhile_all_nil {p : Char → Bool} {l : List Char}
    (h : ∀ c ∈ l, p c = true) : l.dropWhile p = [] := by
  induction l with
  | nil => rfl
  | cons c cs ih =>
    rw [List.dropWhile_cons, if_pos (h c (List.mem_cons_self _ _))]
    exact ih (fun d hd => h d (List.mem_cons_of_mem c hd))

theorem nonblank_of_strip_ne {l : List Char} (h : stripWS l ≠ []) :
    nonblankB l = true := by
  by_contra hb
  apply h
  have hall : ∀ c ∈ l, pyWS c = true := by
    intro c hc
    by_contra hcc
    exact hb (List.any_eq_true.mpr ⟨c, hc, by simpa using hcc⟩)
  rw [stripWS, lstripWS, dropWhile_all_nil hall]
  rfl

theorem collapseSpTab_one (c : Char) :
    collapseSpTab [c] = if isSpTab c then [' '] else [c] := rfl

theorem collapseSpTab_cons2 (c d : Char) (ds : List Char) :
    collapseSpTab (c :: d :: ds) =
      if isSpTab c then
        (if isSpTab d then collapseSpTab (d :: ds) else ' ' :: collapseSpTab (d :: ds))
      else c :: collapseSpTab (d :: ds) := rfl

theorem collapseMultiA_one (b : Bool) (c : Char) :
    collapseMultiA b [c] = if isSpTab c then [if b then ' ' else c] else [c] := rfl

theorem collapseMultiA_cons2 (b : Bool) (c d : Char) (ds : List Char) :
    collapseMultiA b (c :: d :: ds) =
      if isSpTab c then
        (if isSpTab d then collapseMultiA true (d :: ds)
         else (if b then ' ' else c) :: collapseMultiA false (d :: ds))
      else c :: collapseMultiA false (d :: ds) := rfl

theorem collapseSpTab_no_nl {l : List Char} (h : '\n' ∉ l) : '\n' ∉ collapseSpTab l := by
  induction l with
  | nil => simp [collapseSpTab]
  | cons c cs ih =>
    have hc : c ≠ '\n' := fun e => h (by simp [e])
    have hcs : '\n' ∉ cs := fun e => h (List.mem_cons_of_mem c e)
    cases cs with
    | nil =>
      rw [collapseSpTab_one]
      split <;> simp
      exact fun e => hc e.symm
    | cons d ds =>
      rw [collapseSpTab_cons2]
      by_cases hsp : isSpTab c = true
      · rw [if_pos hsp]
        by_cases hd : isSpTab d = true
        · rw [if_pos hd]; exact ih hcs
        · rw [if_neg hd]
          intro hmem
          rcases List.mem_cons.mp hmem with he | hm
          · exact absurd he.symm (by decide)
          · exact ih hcs hm
      · rw [if_neg hsp]
        intro hmem
        rcases List.mem_cons.mp hmem with he | hm
        · exact hc he.symm
        · exact ih hcs hm

theorem collapseSpTab_nonblank {l : List Char} (h : nonblankB l = true) :
    nonblankB (collapseSpTab l) = true := by
  induction l with
  | nil => simp [nonblankB] at h
  | cons c cs ih =>
    by_cases hsp : isSpTab c = true
    · have hcs : nonblankB cs = true := by
        rcases List.any_eq_true.mp h with ⟨d, hd, hnw⟩
        rcases List.mem_cons.mp hd with rfl | hd'
        · rw [spTab_pyWS hsp] at hnw; simp at hnw
        · exact List.any_eq_true.mpr ⟨d, hd', hnw⟩
      cases cs with
      | nil => simp [nonblankB] at hcs
      | cons d ds =>
        rw [collapseSpTab_cons2, if_pos hsp]
        by_cases hd : isSpTab d = true
        · rw [if_pos hd]; exact ih hcs
        · rw [if_neg hd]
          have hr := ih hcs
          simp only [nonblankB, List.any_cons] at hr ⊢
          simp [hr]
    · rcases List.any_eq_true.mp h with ⟨d, hd, hnw⟩
      have htail : collapseSpTab (c :: cs) = c :: collapseSpTab cs := by
        cases cs with
        | nil => rw [collapseSpTab_one, if_neg hsp]; rfl
        | cons e es => rw [collapseSpTab_cons2, if_neg hsp]
      rw [htail]
      rcases List.mem_cons.mp hd with rfl | hd'
      · exact List.any_eq_true.mpr ⟨d, List.mem_cons_self _ _, hnw⟩
      · have hr := ih (List.any_eq_true.mpr ⟨d, hd', hnw⟩)
        simp only [nonblankB, List.any_cons] at hr ⊢
        simp [hr]

theorem collapseMultiA_no_nl {l : List Char} (h : '\n' ∉ l) :
    ∀ b, '\n' ∉ collapseMultiA b l := by
  induction l with
  | nil => intro b; simp [collapseMultiA]
  | cons c cs ih =>
    intro b
    have hc : c ≠ '\n' := fun e => h (by simp [e])
    have hcs : '\n' ∉ cs := fun e => h (List.mem_cons_of_mem c e)
    cases cs with
    | nil =>
      rw [collapseMultiA_one]
      by_cases hsp : isSpTab c = true
      · rw [if_pos hsp]
        cases b
        · show '\n' ∉ [c]
          simp
          exact fun e => hc e.symm
        · show '\n' ∉ [' ']
          decide
      · rw [if_neg hsp]
        simp
        exact fun e => hc e.symm
    | cons d ds =>
      rw [collapseMultiA_cons2]
      by_cases hsp : isSpTab c = true
      · rw [if_pos hsp]
        by_cases hd : isSpTab d = true
        · rw [if_pos hd]; exact ih hcs true
        · rw [if_neg hd]
          intro hmem
          rcases List.mem_cons.mp hmem with he | hm
          · revert he; cases b <;> intro he
            · exact hc he.symm
            · rw [if_pos rfl] at he
              exact absurd he.symm (by decide)
          · exact ih hcs false hm
      · rw [if_neg hsp]
        intro hmem
        rcases List.mem_cons.mp hmem with he | hm
        · exact hc he.symm
        · exact ih hcs false hm

theorem collapseMultiA_nonblank {l : List Char} (h : nonblankB l = true) :
    ∀ b, nonblankB (collapseMultiA b l) = true := by
  induction l with
  | nil => simp [nonblankB] at h
  | cons c cs ih =>
    intro b
    by_cases hsp : isSpTab c = true
    · have hcs : nonblankB cs = true := by
        rcases List.any_eq_true.mp h with ⟨d, hd, hnw⟩
        rcases List.mem_cons.mp hd with rfl | hd'
        · rw [spTab_pyWS hsp] at hnw; simp at hnw
        · exact List.any_eq_true.mpr ⟨d, hd', hnw⟩
      cases cs with
      | nil => simp [nonblankB] at hcs
      | cons d ds =>
        rw [collapseMultiA_cons2, if_pos hsp]
        by_cases hd : isSpTab d = true
        · rw [if_pos hd]; exact ih hcs true
        · rw [if_neg hd]
          have hr := ih hcs false
          simp only [nonblankB, List.any_cons] at hr ⊢
          simp [hr]
    · rcases List.any_eq_true.mp h with ⟨d, hd, hnw⟩
      have htail : collapseMultiA b (c :: cs) = c :: collapseMultiA false cs := by
        cases cs with
        | nil => rw [collapseMultiA_one, if_neg hsp]; rfl
        | cons e es => rw [collapseMultiA_cons2, if_neg hsp]
      rw [htail]
      rcases List.mem_cons.mp hd with rfl | hd'
      · exact List.any_eq_true.mpr ⟨d, List.mem_cons_self _ _, hnw⟩
      · have hr := ih (List.any_eq_true.mpr ⟨d, hd', hnw⟩) false
        simp only [nonblankB, List.any_cons] at hr ⊢
        simp [hr]

theorem dropWhile_no_nl {p : Char → Bool} {l : List Char} (h : '\n' ∉ l) :
    '\n' ∉ l.dropWhile p :=
  fun hm => h ((List.dropWhile_sublist p).subset hm)

theorem dropWhile_nonblank {p : Char → Bool} (hp : ∀ c, p c = true → pyWS c = true)
    {l : List Char} (h : nonblankB l = true) : nonblankB (l.dropWhile p) = true := by
  induction l with
  | nil => simp [nonblankB] at h
  | cons c cs ih =>
    rw [List.dropWhile_cons]
    by_cases hc : p c = true
    · rw [if_pos hc]
      apply ih
      rcases List.any_eq_true.mp h with ⟨d, hd, hnw⟩
      rcases List.mem_cons.mp hd with rfl | hd'
      · rw [hp d hc] at hnw; simp at hnw
      · exact List.any_eq_true.mpr ⟨d, hd', hnw⟩
    · rw [if_neg hc]
      exact h

theorem rstripSpTab_no_nl {l : List Char} (h : '\n' ∉ l) : '\n' ∉ rstripSpTab l := by
  intro hm
  rw [rstripSpTab, List.mem_reverse] at hm
  exact dropWhile_no_nl (by simpa using h) hm

theorem rstripSpTab_nonblank {l : List Char} (h : nonblankB l = true) :
    nonblankB (rstripSpTab l) = true := by
  rw [rstripSpTab]
  rw [show nonblankB (l.reverse.dropWhile isSpTab).reverse =
      (l.reverse.dropWhile isSpTab).any (fun c => !pyWS c) from by
    simp [nonblankB, List.any_reverse]]
  exact dropWhile_nonblank (fun c hc => spTab_pyWS hc) (by simpa [nonblankB, List.any_reverse] using h)

theorem joinNl_cons (l m : List Char) (ms : List (List Char)) :
    joinNl (l :: m :: ms) = l ++ '\n' :: joinNl (m :: ms) := rfl

theorem joinNl_ne_nil {h : List Char} (t : List (List Char)) (hh : h ≠ []) :
    joinNl (h :: t) ≠ [] := by
  cases t with
  | nil => exact hh
  | cons m ms =>
    rw [joinNl_cons]
    simp

theorem nonblank_joinNl : ∀ (L : List (List Char)), L ≠ [] →
    (∀ l ∈ L, nonblankB l = true) → nonblankB (joinNl L) = true := by
  intro L hL hall
  cases L with
  | nil => exact absurd rfl hL
  | cons h t =>
    cases t with
    | nil => exact hall h (List.mem_cons_self _ _)
    | cons m ms =>
      rw [joinNl_cons]
      have := hall h (List.mem_cons_self _ _)
      simp only [nonblankB, List.any_append, Bool.or_eq_true]
      exact Or.inl this

theorem joinNl_headD {m : List Char} (ms : List (List Char)) (hm : m ≠ []) :
    (joinNl (m :: ms)).headD ' ' = m.headD ' ' := by
  cases ms with
  | nil => rfl
  | cons n ns =>
    rw [joinNl_cons]
    obtain ⟨c, m', rfl⟩ := List.exists_cons_of_ne_nil hm
    rfl

theorem noDblNl_cons {c : Char} {X : List Char} (hc : c ≠ '\n')
    (hX : noDblNl X = true) : noDblNl (c :: X) = true := by
  cases X with
  | nil => rfl
  | cons b cs =>
    have hcb : (c == '\n') = false := by simpa using hc
    simp [noDblNl, hcb, hX]

theorem noDblNl_of_no_nl {s : List Char} (h : '\n' ∉ s) : noDblNl s = true := by
  induction s with
  | nil => rfl
  | cons c cs ih =>
    exact noDblNl_cons (fun e => h (by simp [e]))
      (ih (fun e => h (List.mem_cons_of_mem c e)))

theorem noDbl_seg_append {l r : List Char} (hl : '\n' ∉ l) (hr : noDblNl r = true)
    (hh : r.headD ' ' ≠ '\n') : noDblNl (l ++ '\n' :: r) = true := by
  induction l with
  | nil =>
    cases r with
    | nil => rfl
    | cons d t =>
      have hd : (d == '\n') = false := by simpa using hh
      simp [noDblNl, hd, hr]
  | cons c l' ih =>
    exact noDblNl_cons (fun e => hl (by simp [e]))
      (ih (fun e => hl (List.mem_cons_of_mem c e)))

theorem joinNl_noDbl : ∀ (L : List (List Char)),
    (∀ l ∈ L, l ≠ [] ∧ '\n' ∉ l) → noDblNl (joinNl L) = true := by
  intro L
  induction L with
  | nil => intro _; rfl
  | cons l ls ih =>
    intro hall
    cases ls with
    | nil => exact noDblNl_of_no_nl (hall l (List.mem_cons_self _ _)).2
    | cons m ms =>
      rw [joinNl_cons]
      have hm := hall m (List.mem_cons_of_mem _ (List.mem_cons_self _ _))
      apply noDbl_seg_append (hall l (List.mem_cons_self _ _)).2
        (ih (fun x hx => hall x (List.mem_cons_of_mem l hx)))
      rw [joinNl_headD ms hm.1]
      obtain ⟨c, m', rfl⟩ := List.exists_cons_of_ne_nil hm.1
      intro e
      rw [List.headD_cons] at e
      exact hm.2 (by rw [← e]; exact List.mem_cons_self _ _)

theorem collapseNlA_id : ∀ s : List Char, noDblNl s = true →
    collapseNlA 0 s = s ∧ (s.headD ' ' ≠ '\n' → collapseNlA 1 s = '\n' :: s) := by
  intro s
  induction s with
  | nil => exact fun _ => ⟨rfl, fun _ => rfl⟩
  | cons c cs ih =>
    intro h
    have htail : noDblNl cs = true := by
      cases cs with
      | nil => rfl
      | cons d ds =>
        rw [noDblNl] at h
        exact ((Bool.and_eq_true _ _).mp h).2
    constructor
    · rw [collapseNlA]
      by_cases hc : c = '\n'
      · rw [if_pos hc]
        subst hc
        have hh2 : cs.headD ' ' ≠ '\n' := by
          cases cs with
          | nil => simp
          | cons d ds =>
            rw [noDblNl] at h
            have h1 := ((Bool.and_eq_true _ _).mp h).1
            simp only [List.headD_cons]
            simpa using h1
        rw [(ih htail).2 hh2]
      · rw [if_neg hc, (ih htail).1]
        simp [nlRep]
    · intro hh
      have hc : c ≠ '\n' := by simpa using hh
      rw [collapseNlA, if_neg hc, (ih htail).1]
      simp [nlRep]

theorem collapseNl_of_noDbl {s : List Char} (h : noDblNl s = true) :
    collapseNl s = s := (collapseNlA_id s h).1

theorem dropWhileWS_append {l r : List Char} (h : nonblankB l = true) :
    (l ++ r).dropWhile pyWS = l.dropWhile pyWS ++ r := by
  induction l with
  | nil => simp [nonblankB] at h
  | cons c cs ih =>
    rw [List.cons_append, List.dropWhile_cons, List.dropWhile_cons]
    by_cases hc : pyWS c = true
    · rw [if_pos hc, if_pos hc]
      apply ih
      rcases List.any_eq_true.mp h with ⟨d, hd, hnw⟩
      rcases List.mem_cons.mp hd with rfl | hd'
      · rw [hc] at hnw; simp at hnw
      · exact List.any_eq_true.mpr ⟨d, hd', hnw⟩
    · rw [if_neg hc, if_neg hc, List.cons_append]

theorem rstrip_append {l r : List Char} (h : nonblankB r = true) :
    rstripWS (l ++ r) = l ++ rstripWS r := by
  have hrev : nonblankB r.reverse = true := by
    simpa [nonblankB, List.any_reverse] using h
  rw [rstripWS, List.reverse_append, dropWhileWS_append hrev]
  simp [rstripWS]

def modLast : List (List Char) → List (List Char)
  | [] => []
  | [l] => [rstripWS l]
  | l :: ls => l :: modLast ls

theorem modLast_cons (l m : List Char) (ms : List (List Char)) :
    modLast (l :: m :: ms) = l :: modLast (m :: ms) := rfl

theorem rstrip_joinNl : ∀ (L : List (List Char)), L ≠ [] →
    (∀ l ∈ L, nonblankB l = true) → rstripWS (joinNl L) = joinNl (modLast L) := by
  intro L
  induction L with
  | nil => intro h; exact absurd rfl h
  | cons l ls ih =>
    intro _ hall
    cases ls with
    | nil => rfl
    | cons m ms =>
      have hmm : nonblankB (joinNl (m :: ms)) = true :=
        nonblank_joinNl _ (List.cons_ne_nil _ _)
          (fun x hx => hall x (List.mem_cons_of_mem l hx))
      rw [joinNl_cons, modLast_cons]
      have hsplit : l ++ '\n' :: joinNl (m :: ms) = (l ++ ['\n']) ++ joinNl (m :: ms) := by
        simp
      rw [hsplit, rstrip_append hmm,
        ih (List.cons_ne_nil _ _) (fun x hx => hall x (List.mem_cons_of_mem l hx))]
      cases hml : modLast (m :: ms) with
      | nil =>
        exfalso
        cases ms with
        | nil => simp [modLast] at hml
        | cons n ns => rw [modLast_cons] at hml; simp at hml
      | cons q qs =>
        rw [joinNl_cons]
        simp

theorem mem_modLast : ∀ (L : List (List Char)) (l : List Char), l ∈ modLast L →
    l ∈ L ∨ ∃ m ∈ L, l = rstripWS m := by
  intro L
  induction L with
  | nil => intro l h; simp [modLast] at h
  | cons x ls ih =>
    intro l h
    cases ls with
    | nil =>
      simp only [modLast, List.mem_singleton] at h
      exact Or.inr ⟨x, List.mem_cons_self _ _, h⟩
    | cons m ms =>
      rw [modLast_cons] at h
      rcases List.mem_cons.mp h with rfl | h'
      · exact Or.inl (List.mem_cons_self _ _)
      · rcases ih l h' with hl | ⟨n, hn, he⟩
        · exact Or.inl (List.mem_cons_of_mem _ hl)
        · exact Or.inr ⟨n, List.mem_cons_of_mem _ hn, he⟩

theorem mem_mapInit : ∀ (L : List (List Char)) (l : List Char), l ∈ mapInit L →
    l ∈ L ∨ ∃ m ∈ L, l = rstripSpTab m := by
  intro L
  induction L with
  | nil => intro l h; simp [mapInit] at h
  | cons x ls ih =>
    intro l h
    cases ls with
    | nil =>
      simp only [mapInit, List.mem_singleton] at h
      exact Or.inl (by simp [h])
    | cons m ms =>
      rw [show mapInit (x :: m :: ms) = rstripSpTab x :: mapInit (m :: ms) from rfl] at h
      rcases List.mem_cons.mp h with rfl | h'
      · exact Or.inr ⟨x, List.mem_cons_self _ _, rfl⟩
      · rcases ih l h' with hl | ⟨n, hn, he⟩
        · exact Or.inl (List.mem_cons_of_mem _ hl)
        · exact Or.inr ⟨n, List.mem_cons_of_mem _ hn, he⟩

theorem lstrip_joinNl {h : List Char} (t : List (List Char))
    (hn : nonblankB h = true) :
    lstripWS (joinNl (h :: t)) = joinNl (h.dropWhile pyWS :: t) := by
  cases t with
  | nil => rfl
  | cons m ms => rw [joinNl_cons, lstripWS, dropWhileWS_append hn, joinNl_cons]

theorem rstripWS_no_nl {l : List Char} (h : '\n' ∉ l) : '\n' ∉ rstripWS l := by
  intro hm
  rw [rstripWS, List.mem_reverse] at hm
  exact dropWhile_no_nl (by simpa using h) hm

theorem rstripWS_nonblank {l : List Char} (h : nonblankB l = true) :
    nonblankB (rstripWS l) = true := by
  rw [rstripWS]
  rw [show nonblankB (l.reverse.dropWhile pyWS).reverse =
      (l.reverse.dropWhile pyWS).any (fun c => !pyWS c) from by
    simp [nonblankB, List.any_reverse]]
  exact dropWhile_nonblank (fun c hc => hc) (by simpa [nonblankB, List.any_reverse] using h)

theorem nonblank_ne_nil {l : List Char} (h : nonblankB l = true) : l ≠ [] := by
  intro e
  subst e
  simp [nonblankB] at h

theorem collapseSpaces_join (L : List (List Char)) (hne : L ≠ [])
    (hnl : ∀ l ∈ L, '\n' ∉ l) :
    collapseSpaces (joinNl L) = joinNl (L.map collapseSpTab) := by
  unfold collapseSpaces
  rw [splitNl_joinNl L hne hnl]

theorem collapseMulti_join (L : List (List Char)) (hne : L ≠ [])
    (hnl : ∀ l ∈ L, '\n' ∉ l) :
    collapseMulti (joinNl L) = joinNl (L.map (collapseMultiA false)) := by
  unfold collapseMulti
  rw [splitNl_joinNl L hne hnl]

theorem stripLineLeading_join (h : List Char) (t : List (List Char))
    (hnl : ∀ l ∈ h :: t, '\n' ∉ l) :
    stripLineLeading (joinNl (h :: t)) =
      joinNl (h :: t.map (List.dropWhile isSpTab)) := by
  unfold stripLineLeading
  rw [splitNl_joinNl _ (List.cons_ne_nil _ _) hnl]

theorem stripLineTrailing_join (L : List (List Char)) (hne : L ≠ [])
    (hnl : ∀ l ∈ L, '\n' ∉ l) :
    stripLineTrailing (joinNl L) = joinNl (mapInit L) := by
  unfold stripLineTrailing
  rw [splitNl_joinNl L hne hnl]

/-- Claim C9 (confirmed): every line of the normalizer's output contains
a non-whitespace character — the deduplication pass drops all blank
lines and no later pass reintroduces one — and consequently the output
never contains two consecutive line breaks (an empty output has no
lines). -/
theorem c9_normalizer_lines_nonblank (x : List Char) :
    (∀ l ∈ linesOfL (cleanPdfTextL x), ∃ c ∈ l, pyWS c = false) ∧
    noDblNl (cleanPdfTextL x) = true := by
  suffices h : ∀ u : List Char,
      (∀ l ∈ linesOfL (stripWS (collapseMulti (collapseNl (stripLineTrailing
        (stripLineLeading (collapseSpaces (dedupeText u))))))),
        ∃ c ∈ l, pyWS c = false) ∧
      noDblNl (stripWS (collapseMulti (collapseNl (stripLineTrailing
        (stripLineLeading (collapseSpaces (dedupeText u))))))) = true by
    exact h (dropUrls (dropWebFooters (dropPageTags (dropNumLines
      (mergeBroken (dehyph x))))))
  intro u
  cases hL0 : dedupeLines (splitNl u) with
  | nil =>
    have hz : stripWS (collapseMulti (collapseNl (stripLineTrailing
        (stripLineLeading (collapseSpaces (dedupeText u)))))) = [] := by
      rw [dedupeText, hL0]
      rfl
    rw [hz]
    exact ⟨by simp [linesOfL], rfl⟩
  | cons h0 t0 =>
    have hf0 : ∀ l ∈ h0 :: t0, '\n' ∉ l ∧ nonblankB l = true := by
      intro l hl
      rw [← hL0] at hl
      exact ⟨mem_splitNl_no_nl u l (mem_dedupeLinesA _ _ hl),
        nonblank_of_strip_ne (dedupe_kept_strip_ne _ _ hl)⟩
    have hA : dedupeText u = joinNl (h0 :: t0) := by rw [dedupeText, hL0]
    -- pass 5a
    have hB := collapseSpaces_join (h0 :: t0) (List.cons_ne_nil _ _)
      (fun l hl => (hf0 l hl).1)
    have hf1 : ∀ l ∈ (h0 :: t0).map collapseSpTab, '\n' ∉ l ∧ nonblankB l = true := by
      intro l hl
      rcases List.mem_map.mp hl with ⟨m, hm, rfl⟩
      exact ⟨collapseSpTab_no_nl (hf0 m hm).1, collapseSpTab_nonblank (hf0 m hm).2⟩
    -- pass 5b
    have hmapcons : (h0 :: t0).map collapseSpTab =
        collapseSpTab h0 :: t0.map collapseSpTab := List.map_cons _ _ _
    have hC : stripLineLeading (joinNl ((h0 :: t0).map collapseSpTab)) =
        joinNl (collapseSpTab h0 ::
          (t0.map collapseSpTab).map (List.dropWhile isSpTab)) := by
      rw [hmapcons]
      exact stripLineLeading_join _ _ (fun l hl => (hf1 l (hmapcons ▸ hl)).1)
    have hf2 : ∀ l ∈ collapseSpTab h0 ::
        (t0.map collapseSpTab).map (List.dropWhile isSpTab),
        '\n' ∉ l ∧ nonblankB l = true := by
      intro l hl
      rcases List.mem_cons.mp hl with rfl | hl'
      · exact hf1 _ (hmapcons ▸ List.mem_cons_self _ _)
      · rcases List.mem_map.mp hl' with ⟨m, hm, rfl⟩
        have hm' := hf1 m (hmapcons ▸ List.mem_cons_of_mem _ hm)
        exact ⟨dropWhile_no_nl hm'.1,
          dropWhile_nonblank (fun c hc => spTab_pyWS hc) hm'.2⟩
    -- pass 5c
    have hD : stripLineTrailing (joinNl (collapseSpTab h0 ::
        (t0.map collapseSpTab).map (List.dropWhile isSpTab))) =
        joinNl (mapInit (collapseSpTab h0 ::
          (t0.map collapseSpTab).map (List.dropWhile isSpTab))) :=
      stripLineTrailing_join _ (List.cons_ne_nil _ _) (fun l hl => (hf2 l hl).1)
    have hf3 : ∀ l ∈ mapInit (collapseSpTab h0 ::
        (t0.map collapseSpTab).map (List.dropWhile isSpTab)),
        '\n' ∉ l ∧ nonblankB l = true := by
      intro l hl
      rcases mem_mapInit _ _ hl with hl' | ⟨m, hm, rfl⟩
      · exact hf2 l hl'
      · exact ⟨rstripSpTab_no_nl (hf2 m hm).1, rstripSpTab_nonblank (hf2 m hm).2⟩
    -- pass 5d is the identity here: there are no blank lines, hence no
    -- run of two or more newlines
    obtain ⟨g0, g1, hg⟩ : ∃ g0 g1, mapInit (collapseSpTab h0 ::
        (t0.map collapseSpTab).map (List.dropWhile isSpTab)) = g0 :: g1 := by
      cases hmi : mapInit (collapseSpTab h0 ::
          (t0.map collapseSpTab).map (List.dropWhile isSpTab)) with
      | nil =>
        exfalso
        cases hmt : (t0.map collapseSpTab).map (List.dropWhile isSpTab) with
        | nil => rw [hmt] at hmi; simp [mapInit] at hmi
        | cons a b => rw [hmt] at hmi; rw [show mapInit (collapseSpTab h0 :: a :: b) =
            rstripSpTab (collapseSpTab h0) :: mapInit (a :: b) from rfl] at hmi; simp at hmi
      | cons g0 g1 => exact ⟨g0, g1, rfl⟩
    have hf3' : ∀ l ∈ g0 :: g1, '\n' ∉ l ∧ nonblankB l = true := by
      intro l hl
      exact hf3 l (by rw [hg]; exact hl)
    have hE : collapseNl (joinNl (g0 :: g1)) = joinNl (g0 :: g1) := by
      apply collapseNl_of_noDbl
      exact joinNl_noDbl _ (fun l hl =>
        ⟨nonblank_ne_nil (hf3' l hl).2, (hf3' l hl).1⟩)
    -- pass 5e
    have hF := collapseMulti_join (g0 :: g1) (List.cons_ne_nil _ _)
      (fun l hl => (hf3' l hl).1)
    have hf4 : ∀ l ∈ (g0 :: g1).map (collapseMultiA false),
        '\n' ∉ l ∧ nonblankB l = true := by
      intro l hl
      rcases List.mem_map.mp hl with ⟨m, hm, rfl⟩
      exact ⟨collapseMultiA_no_nl (hf3' m hm).1 false,
        collapseMultiA_nonblank (hf3' m hm).2 false⟩
    -- final strip
    have hmapcons2 : (g0 :: g1).map (collapseMultiA false) =
        collapseMultiA false g0 :: g1.map (collapseMultiA false) := List.map_cons _ _ _
    have hG : lstripWS (joinNl ((g0 :: g1).map (collapseMultiA false))) =
        joinNl ((collapseMultiA false g0).dropWhile pyWS ::
          g1.map (collapseMultiA false)) := by
      rw [hmapcons2]
      exact lstrip_joinNl _ (hf4 _ (hmapcons2 ▸ List.mem_cons_self _ _)).2
    have hf5 : ∀ l ∈ (collapseMultiA false g0).dropWhile pyWS ::
        g1.map (collapseMultiA false), '\n' ∉ l ∧ nonblankB l = true := by
      intro l hl
      rcases List.mem_cons.mp hl with rfl | hl'
      · have hg0 := hf4 _ (hmapcons2 ▸ List.mem_cons_self _ _)
        exact ⟨dropWhile_no_nl hg0.1, dropWhile_nonblank (fun c hc => hc) hg0.2⟩
      · exact hf4 l (hmapcons2 ▸ List.mem_cons_of_mem _ hl')
    have hH : rstripWS (joinNl ((collapseMultiA false g0).dropWhile pyWS ::
        g1.map (collapseMultiA false))) =
        joinNl (modLast ((collapseMultiA false g0).dropWhile pyWS ::
          g1.map (collapseMultiA false))) :=
      rstrip_joinNl _ (List.cons_ne_nil _ _) (fun l hl => (hf5 l hl).2)
    have hf6 : ∀ l ∈ modLast ((collapseMultiA false g0).dropWhile pyWS ::
        g1.map (collapseMultiA false)), '\n' ∉ l ∧ nonblankB l = true := by
      intro l hl
      rcases mem_modLast _ _ hl with hl' | ⟨m, hm, rfl⟩
      · exact hf5 l hl'
      · exact ⟨rstripWS_no_nl (hf5 m hm).1, rstripWS_nonblank (hf5 m hm).2⟩
    obtain ⟨k0, k1, hk⟩ : ∃ k0 k1, modLast ((collapseMultiA false g0).dropWhile pyWS ::
        g1.map (collapseMultiA false)) = k0 :: k1 := by
      cases hml : modLast ((collapseMultiA false g0).dropWhile pyWS ::
          g1.map (collapseMultiA false)) with
      | nil =>
        exfalso
        cases hgt : g1.map (collapseMultiA false) with
        | nil => rw [hgt] at hml; simp [modLast] at hml
        | cons a b => rw [hgt, modLast_cons] at hml; simp at hml
      | cons k0 k1 => exact ⟨k0, k1, rfl⟩
    have hf6' : ∀ l ∈ k0 :: k1, '\n' ∉ l ∧ nonblankB l = true := by
      intro l hl
      exact hf6 l (by rw [hk]; exact hl)
    -- assemble
    have hfinal : stripWS (collapseMulti (collapseNl (stripLineTrailing
        (stripLineLeading (collapseSpaces (dedupeText u)))))) = joinNl (k0 :: k1) := by
      rw [hA, hB, hC, hD, hg, hE, hF, stripWS, hG, hH, hk]
    rw [hfinal]
    constructor
    · intro l hl
      have hlines : linesOfL (joinNl (k0 :: k1)) = k0 :: k1 := by
        rw [linesOfL, if_neg (joinNl_ne_nil _ (nonblank_ne_nil (hf6' k0
          (List.mem_cons_self _ _)).2)),
          splitNl_joinNl _ (List.cons_ne_nil _ _) (fun m hm => (hf6' m hm).1)]
      rw [hlines] at hl
      rcases List.any_eq_true.mp (hf6' l hl).2 with ⟨c, hc, hnw⟩
      exact ⟨c, hc, by simpa using hnw⟩
    · exact joinNl_noDbl _ (fun l hl =>
        ⟨nonblank_ne_nil (hf6' l hl).2, (hf6' l hl).1⟩)

theorem c9_normalizer_lines_nonblank_witness :
    ∃ c ∈ ("ab".data : List Char), pyWS c = false :=
  (c9_normalizer_lines_nonblank ("ab".data)).1 ("ab".data) (by decide)
